import Mathlib

/-!
Verification development for the WordlePy candidate-constraint engine
(`src/expected_value.py`, `src/wordle_functions.py`, `src/wordle_tests.py`).

Words, patterns and the stored JSON strings are modelled as `List Char`;
Python `dict`s preserving insertion order are modelled as association
lists; Python sets whose only observable behaviour is membership are
modelled as duplicate-free char lists built with add-if-absent; Python
`Counter`s are modelled as key/count association lists; Python exceptions
are modelled with `Option`.
-/

namespace WordlePy

def lowerWord (w : List Char) : List Char := w.map Char.toLower

def decr (cnt : Char → Int) (c : Char) : Char → Int :=
  fun x => if x = c then cnt x - 1 else cnt x

def initCounts (answer : List Char) : Char → Int :=
  fun c => (answer.count c : Int)

def pass1 : List (Char × Char) → (Char → Int) → List Char × (Char → Int)
  | [], cnt => ([], cnt)
  | (gc, cc) :: rest, cnt =>
    if gc = cc then
      let r := pass1 rest (decr cnt gc)
      ('G' :: r.1, r.2)
    else
      let r := pass1 rest cnt
      ('X' :: r.1, r.2)

def pass2 (answer : List Char) : List (Char × Char) → (Char → Int) → List Char
  | [], _ => []
  | (gc, fb) :: rest, cnt =>
    if fb = 'G' then 'G' :: pass2 answer rest cnt
    else if gc ∈ answer ∧ 0 < cnt gc then 'A' :: pass2 answer rest (decr cnt gc)
    else 'X' :: pass2 answer rest cnt

def feedback_core (g a : List Char) : List Char :=
  let r := pass1 (g.zip a) (initCounts a)
  pass2 a (g.zip r.1) r.2

def generate_wordle_feedback (guess candidate : List Char) : List Char :=
  feedback_core (lowerWord guess) (lowerWord candidate)

/-- Count of positions of the pair list whose guess letter is `c` and whose mark passes `m`. -/
def markCount (c : Char) (m : Char → Bool) (pairs : List (Char × Char)) : Nat :=
  pairs.countP (fun p => p.1 == c && m p.2)

/-! ## apply_updated_criteria defs -/

def upperWord (w : List Char) : List Char := w.map Char.toUpper

def addIfAbsent (c : Char) (l : List Char) : List Char :=
  if c ∈ l then l else l ++ [c]

def setAt (i : Nat) (c : Char) (l : List Char) : List Char :=
  l.take i ++ c :: l.drop (i + 1)

structure Criteria where
  known_letters : List Char
  unlocated_letters : List Char
  letters_not_in_word : List Char
  position_exclusions : List (List Char)

def criteriaStep (i : Nat) (p : Char × Char) (st : Criteria) : Criteria :=
  if p.2 = 'G' then { st with known_letters := setAt i p.1 st.known_letters }
  else if p.2 = 'A' then
    { st with unlocated_letters := addIfAbsent p.1 st.unlocated_letters,
              position_exclusions := st.position_exclusions.set i
                (addIfAbsent p.1 (st.position_exclusions.getD i [])) }
  else if p.2 = 'X' then { st with letters_not_in_word := addIfAbsent p.1 st.letters_not_in_word }
  else st

def buildCriteria : Nat → List (Char × Char) → Criteria → Criteria
  | _, [], st => st
  | i, p :: rest, st => buildCriteria (i + 1) rest (criteriaStep i p st)

def initCriteria : Criteria :=
  ⟨List.replicate 5 '-', [], [], List.replicate 5 []⟩

def pruneNotin (st : Criteria) : List Char :=
  (st.letters_not_in_word.filter
      (fun c => decide (c ∉ st.known_letters.filter (fun x => decide (x ≠ '-'))))).filter
    (fun c => decide (c ∉ st.unlocated_letters))

def matchesKnown (known w : List Char) : Bool :=
  (known.zip w).all (fun q => q.1 == '-' || q.1 == q.2)

def containsAll (req w : List Char) : Bool :=
  req.all (fun c => w.contains c)

def positionOk (posExcl : List (List Char)) (w : List Char) : Bool :=
  (w.zip posExcl).all (fun q => !(q.2.contains q.1))

def excludesAll (notin w : List Char) : Bool :=
  notin.all (fun c => !(w.contains c))

def criteriaPass (g p w : List Char) : Bool :=
  matchesKnown (buildCriteria 0 (g.zip p) initCriteria).known_letters w
    && containsAll (buildCriteria 0 (g.zip p) initCriteria).unlocated_letters w
    && positionOk (buildCriteria 0 (g.zip p) initCriteria).position_exclusions w
    && excludesAll (pruneNotin (buildCriteria 0 (g.zip p) initCriteria)) w

def criteria_count (g p : List Char) (cands : List (List Char)) : Nat :=
  (cands.filter (criteriaPass g p)).length

def apply_updated_criteria (guess pattern : List Char) (cands : List (List Char)) : Nat :=
  criteria_count (lowerWord guess) (upperWord pattern) (cands.map lowerWord)

def evaluate_guess_candidates (guess : List Char) (cands : List (List Char)) :
    List (List Char × List Char × Nat) :=
  let g := lowerWord guess
  let cs := cands.map lowerWord
  cs.map (fun w =>
    (w, generate_wordle_feedback g w, apply_updated_criteria g (generate_wordle_feedback g w) cs))

/-! ## component folds of buildCriteria -/

def foldKnown : Nat → List (Char × Char) → List Char → List Char
  | _, [], k => k
  | i, p :: rest, k => foldKnown (i + 1) rest (if p.2 = 'G' then setAt i p.1 k else k)

def foldSetAdd (mk : Char) : List (Char × Char) → List Char → List Char
  | [], u => u
  | p :: rest, u => foldSetAdd mk rest (if p.2 = mk then addIfAbsent p.1 u else u)

def foldPosExcl : Nat → List (Char × Char) → List (List Char) → List (List Char)
  | _, [], pe => pe
  | i, p :: rest, pe =>
    foldPosExcl (i + 1) rest (if p.2 = 'A' then pe.set i (addIfAbsent p.1 (pe.getD i [])) else pe)

/-! ## update_wordle_json model -/

structure WordleData where
  exclusions : List (String × List Char)
  known_letters : List Char
  unlocated_letters : List Char
  letters_not_in_word : List Char

def exclusionKey (idx : Nat) : String :=
  toString (idx + 1)
    ++ (if idx = 0 then "st" else if idx = 1 then "nd" else if idx = 2 then "rd" else "th")
    ++ " char"

def ensureKey (k : String) (e : List (String × List Char)) : List (String × List Char) :=
  if (e.lookup k).isSome then e else e ++ [(k, [])]

def appendValIfAbsent (k : String) (c : Char) (e : List (String × List Char)) :
    List (String × List Char) :=
  e.map (fun kv => if kv.1 = k then (if c ∈ kv.2 then kv else (kv.1, kv.2 ++ [c])) else kv)

def stepE (i : Nat) (c s : Char) (e : List (String × List Char)) : List (String × List Char) :=
  if s = 'A' ∨ s = 'X' then appendValIfAbsent (exclusionKey i) c (ensureKey (exclusionKey i) e)
  else e

def stepK (i : Nat) (c s : Char) (k : List Char) : List Char :=
  if s = 'G' then setAt i c k else k

def stepU (c s : Char) (u : List Char) : List Char :=
  if s = 'G' then (if c ∈ u then u.filter (fun x => decide (x ≠ c)) else u)
  else if s = 'A' ∧ c ∉ u then u ++ [c]
  else u

def stepN (c s : Char) (n : List Char) : List Char :=
  if s = 'X' ∧ c ∉ n then n ++ [c] else n

def updateStep (i : Nat) (p : Char × Char) (d : WordleData) : WordleData :=
  ⟨stepE i p.1 p.2 d.exclusions, stepK i p.1 p.2 d.known_letters,
   stepU p.1 p.2 d.unlocated_letters, stepN p.1 p.2 d.letters_not_in_word⟩

def processPairs : Nat → List (Char × Char) → WordleData → WordleData
  | _, [], d => d
  | i, p :: rest, d => processPairs (i + 1) rest (updateStep i p d)

def removeListOf (d : WordleData) : List Char :=
  d.known_letters.filter (fun x => decide (x ≠ '-')) ++ d.unlocated_letters

def cleanupNotin (d : WordleData) : WordleData :=
  { d with letters_not_in_word :=
      d.letters_not_in_word.filter (fun c => decide (c ∉ removeListOf d)) }

def update_core (word pattern : List Char) (d : WordleData) : WordleData :=
  cleanupNotin (processPairs 0 (word.zip pattern) d)

def foldE : Nat → List (Char × Char) → List (String × List Char) → List (String × List Char)
  | _, [], e => e
  | i, p :: rest, e => foldE (i + 1) rest (stepE i p.1 p.2 e)

def foldU : List (Char × Char) → List Char → List Char
  | [], u => u
  | p :: rest, u => foldU rest (stepU p.1 p.2 u)

def foldN : List (Char × Char) → List Char → List Char
  | [], n => n
  | p :: rest, n => foldN rest (stepN p.1 p.2 n)

def countStep (q : Char × Char) (c : Char) (n : Nat) : Nat :=
  if q.1 = c ∧ q.2 = 'G' then 0
  else if q.1 = c ∧ q.2 = 'A' ∧ n = 0 then 1
  else n

inductive CntFun where
  | ident
  | zero
  | one
  | max1

def cfApply : CntFun → Nat → Nat
  | .ident, n => n
  | .zero, _ => 0
  | .one, _ => 1
  | .max1, n => if n = 0 then 1 else n

def cfStep (q : Char × Char) (c : Char) (a : CntFun) : CntFun :=
  if q.1 = c ∧ q.2 = 'G' then .zero
  else if q.1 = c ∧ q.2 = 'A' then
    (match a with
     | .ident => .max1
     | .zero => .one
     | .one => .one
     | .max1 => .max1)
  else a

def hasKey (k : String) (e : List (String × List Char)) : Prop :=
  ∃ kv ∈ e, kv.1 = k

def valAll (k : String) (c : Char) (e : List (String × List Char)) : Prop :=
  ∀ kv ∈ e, kv.1 = k → c ∈ kv.2

inductive JVal where
  | str : List Char → JVal
  | obj : List (String × JVal) → JVal
  | arr : List JVal → JVal

def getStrKey (doc : List (String × JVal)) (k : String) : Option (List Char) :=
  match doc.lookup k with
  | some (JVal.str s) => some s
  | _ => none

def objFields : List (String × JVal) → Option (List (String × List Char))
  | [] => some []
  | (k, JVal.str s) :: rest => (objFields rest).map (fun r => (k, s) :: r)
  | _ => none

def getExclKey (doc : List (String × JVal)) : Option (List (String × List Char)) :=
  match doc.lookup "exclusions" with
  | some (JVal.obj fields) => objFields fields
  | _ => none

def writebackEntry (d : WordleData) (kv : String × JVal) : String × JVal :=
  if kv.1 = "exclusions" then
    (kv.1, JVal.obj (d.exclusions.map (fun ex => (ex.1, JVal.str ex.2))))
  else if kv.1 = "known_letters" then (kv.1, JVal.str d.known_letters)
  else if kv.1 = "unlocated_letters_in_word" then (kv.1, JVal.str d.unlocated_letters)
  else if kv.1 = "letters_not_in_word" then (kv.1, JVal.str d.letters_not_in_word)
  else kv

def writeback (doc : List (String × JVal)) (d : WordleData) : List (String × JVal) :=
  doc.map (writebackEntry d)

def update_wordle_json (doc : List (String × JVal)) (word pattern : List Char) :
    Option (List (String × JVal)) :=
  match getExclKey doc, getStrKey doc "known_letters",
      getStrKey doc "unlocated_letters_in_word", getStrKey doc "letters_not_in_word" with
  | some e, some k, some u, some n =>
      some (writeback doc (update_core word pattern ⟨e, k, u, n⟩))
  | _, _, _, _ => none

def defaultWordleDoc : List (String × JVal) :=
  [("exclusions", JVal.obj [("1st char", JVal.str []), ("2nd char", JVal.str []),
      ("3rd char", JVal.str []), ("4th char", JVal.str []), ("5th char", JVal.str [])]),
   ("known_letters", JVal.str ['-', '-', '-', '-', '-']),
   ("unlocated_letters_in_word", JVal.str []),
   ("letters_not_in_word", JVal.str [])]

def candidates_all_letters (word_list : List (List Char))
    (known_letters unlocated_letters : List Char) : List (List Char) :=
  word_list.filter (fun w =>
    (upperWord (unlocated_letters ++ known_letters.filter Char.isAlpha)).all
      (fun ch => (upperWord (unlocated_letters ++ known_letters.filter Char.isAlpha)).count ch
        ≤ (upperWord w).count ch))

def wfDoc (doc : List (String × JVal)) : Prop :=
  (getExclKey doc).isSome ∧ (getStrKey doc "known_letters").isSome
    ∧ (getStrKey doc "unlocated_letters_in_word").isSome
    ∧ (getStrKey doc "letters_not_in_word").isSome

def docWithExtra : List (String × JVal) :=
  defaultWordleDoc ++ [("previous_guesses", JVal.arr [JVal.str ['c','r','a','n','e']])]

def maxCount (l : List (List Bool × Nat)) : Nat :=
  l.foldl (fun m r => Nat.max m r.2) 0

def ltInf (m : Nat) : Option Nat → Bool
  | none => true
  | some v => m < v

def flnzStep (st : Option (List Char) × Option Nat)
    (entry : List Char × List (List Bool × Nat)) : Option (List Char) × Option Nat :=
  if 0 < maxCount entry.2 ∧ ltInf (maxCount entry.2) st.2 then
    (some entry.1, some (maxCount entry.2))
  else st

def find_lowest_non_zero_max (results : List (List Char × List (List Bool × Nat))) :
    Option (List Char) × Option Nat :=
  results.foldl flnzStep (none, none)

def flnzExample : List (List Char × List (List Bool × Nat)) :=
  [(['a'], [([true], 0), ([false], 0)]),
   (['b'], [([true], 5), ([false], 3)]),
   (['c'], [([true], 2), ([false], 3)]),
   (['d'], [([true], 3), ([false], 1)])]

def uniqueChars (s : List Char) : List Char := (s.map Char.toUpper).eraseDups

def combinations : List Char → Nat → List (List Char)
  | _, 0 => [[]]
  | [], _ + 1 => []
  | x :: xs, r + 1 => (combinations xs r).map (fun c => x :: c) ++ combinations xs (r + 1)

def get_n_letter_combinations (s : List Char) (n : Int) : Option (List (List Char)) :=
  if n < 0 then none
  else some (combinations (uniqueChars s) n.toNat)

def wordKey (w : List Char) : Finset Char := w.toFinset

def bumpKey : List (Finset Char × Nat) → Finset Char → List (Finset Char × Nat)
  | [], k => [(k, 1)]
  | kv :: rest, k => if kv.1 = k then (kv.1, kv.2 + 1) :: rest else kv :: bumpKey rest k

def preprocess_word_list (word_list : List (List Char)) : List (Finset Char × Nat) :=
  word_list.foldl (fun d w => bumpKey d (wordKey w)) []

def trueLetters (combo : List Char) (b : List Bool) : Finset Char :=
  (((combo.zip b).filter (fun q => q.2)).map Prod.fst).toFinset

def binaryCombos : Nat → List (List Bool)
  | 0 => [[]]
  | n + 1 => (binaryCombos n).map (true :: ·) ++ (binaryCombos n).map (false :: ·)

def dictSum (d : List (Finset Char × Nat)) (pr : Finset Char → Bool) : Nat :=
  ((d.filter (fun kv => pr kv.1)).map Prod.snd).sum

def process_binary_combos_with_optimised_counting
    (filtered_combos : List (List Char)) (word_list : List (List Char)) :
    List (List Char × List (List Bool × Nat)) :=
  let word_dict := preprocess_word_list word_list
  filtered_combos.map (fun combo =>
    (combo, (binaryCombos combo.length).map (fun b =>
      (b, dictSum word_dict (fun k =>
        decide (trueLetters combo b ⊆ k
          ∧ Disjoint k (combo.toFinset \ trueLetters combo b)))))))

def process_binary_combos_with_sets
    (filtered_combos : List (List Char)) (word_list : List (List Char)) :
    List (List Char × List (List Bool × Nat)) :=
  let word_sets := word_list.map wordKey
  filtered_combos.map (fun combo =>
    (combo, (binaryCombos combo.length).map (fun b =>
      (b, word_sets.countP (fun k =>
        decide (trueLetters combo b ⊆ k
          ∧ Disjoint k (combo.toFinset \ trueLetters combo b)))))))

theorem countP_disjoint {α : Type} (p q : α → Bool) (l : List α)
    (h : ∀ x ∈ l, ¬(p x = true ∧ q x = true)) :
    l.countP (fun x => p x || q x) = l.countP p + l.countP q := by
  induction l with
  | nil => simp
  | cons a t ih =>
    simp only [List.countP_cons]
    rw [ih (fun x hx => h x (List.mem_cons_of_mem a hx))]
    have := h a (List.mem_cons_self a t)
    cases hp : p a <;> cases hq : q a <;> simp_all <;> omega

theorem pass1_fst (l : List (Char × Char)) : ∀ cnt,
    (pass1 l cnt).1 = l.map (fun p => if p.1 = p.2 then 'G' else 'X') := by
  induction l with
  | nil => intro cnt; rfl
  | cons p rest ih =>
    intro cnt
    obtain ⟨gc, cc⟩ := p
    by_cases h : gc = cc <;> simp [pass1, h, ih]

theorem pass1_snd (l : List (Char × Char)) : ∀ cnt c,
    (pass1 l cnt).2 c = cnt c - (l.countP (fun p => p.1 == p.2 && p.1 == c) : Int) := by
  induction l with
  | nil => intro cnt c; simp [pass1]
  | cons p rest ih =>
    intro cnt c
    obtain ⟨gc, cc⟩ := p
    by_cases h : gc = cc
    · subst h
      have e : pass1 ((gc, gc) :: rest) cnt
          = ('G' :: (pass1 rest (decr cnt gc)).1, (pass1 rest (decr cnt gc)).2) := by
        simp [pass1]
      rw [e]
      rw [ih]
      simp only [List.countP_cons, decr]
      by_cases hc : c = gc
      · subst hc
        simp
        omega
      · have hc' : ¬(gc = c) := fun hh => hc hh.symm
        simp [hc, hc']
    · have e : pass1 ((gc, cc) :: rest) cnt
          = ('X' :: (pass1 rest cnt).1, (pass1 rest cnt).2) := by
        simp [pass1, h]
      rw [e]
      rw [ih]
      simp [List.countP_cons, h]

theorem pass2_length (a : List Char) : ∀ (l : List (Char × Char)) cnt,
    (pass2 a l cnt).length = l.length := by
  intro l
  induction l with
  | nil => intro cnt; rfl
  | cons p rest ih =>
    intro cnt
    obtain ⟨gc, fb⟩ := p
    by_cases hG : fb = 'G'
    · simp [pass2, hG, ih]
    · by_cases hA : gc ∈ a ∧ 0 < cnt gc <;> simp [pass2, hG, hA, ih]

theorem pass2_mem_GAX (a : List Char) : ∀ (l : List (Char × Char)) cnt,
    ∀ x ∈ pass2 a l cnt, x = 'G' ∨ x = 'A' ∨ x = 'X' := by
  intro l
  induction l with
  | nil => intro cnt x hx; simp [pass2] at hx
  | cons p rest ih =>
    intro cnt x hx
    obtain ⟨gc, fb⟩ := p
    by_cases hG : fb = 'G'
    · rw [show pass2 a ((gc, fb) :: rest) cnt = 'G' :: pass2 a rest cnt from by
        simp [pass2, hG]] at hx
      rcases List.mem_cons.mp hx with h | h
      · exact Or.inl h
      · exact ih _ x h
    · by_cases hA : gc ∈ a ∧ 0 < cnt gc
      · rw [show pass2 a ((gc, fb) :: rest) cnt = 'A' :: pass2 a rest (decr cnt gc) from by
          simp [pass2, hG, hA]] at hx
        rcases List.mem_cons.mp hx with h | h
        · exact Or.inr (Or.inl h)
        · exact ih _ x h
      · rw [show pass2 a ((gc, fb) :: rest) cnt = 'X' :: pass2 a rest cnt from by
          simp [pass2, hG, hA]] at hx
        rcases List.mem_cons.mp hx with h | h
        · exact Or.inr (Or.inr h)
        · exact ih _ x h

theorem pass2_countA (a : List Char) (c : Char) : ∀ (l : List (Char × Char)) (cnt : Char → Int),
    markCount c (fun s => s == 'A') ((l.map Prod.fst).zip (pass2 a l cnt))
      = min (if c ∈ a then (cnt c).toNat else 0)
          (l.countP (fun p => p.1 == c && !(p.2 == 'G'))) := by
  intro l
  induction l with
  | nil => intro cnt; simp [pass2, markCount]
  | cons p rest ih =>
    intro cnt
    obtain ⟨gc, fb⟩ := p
    by_cases hG : fb = 'G'
    · subst hG
      rw [show pass2 a ((gc, 'G') :: rest) cnt = 'G' :: pass2 a rest cnt from by simp [pass2]]
      simp only [markCount, List.map_cons, List.zip_cons_cons, List.countP_cons] at *
      rw [ih]
      simp
    · by_cases hA : gc ∈ a ∧ 0 < cnt gc
      · rw [show pass2 a ((gc, fb) :: rest) cnt = 'A' :: pass2 a rest (decr cnt gc) from by
          simp [pass2, hG, hA]]
        simp only [markCount, List.map_cons, List.zip_cons_cons, List.countP_cons] at *
        rw [ih]
        by_cases hc : gc = c
        · subst hc
          simp only [decr, if_pos rfl, if_pos hA.1]
          simp [hG]
          have h1 : 0 < cnt gc := hA.2
          omega
        · have hc2 : ¬(c = gc) := fun hh => hc hh.symm
          simp [decr, hc, hc2]
      · rw [show pass2 a ((gc, fb) :: rest) cnt = 'X' :: pass2 a rest cnt from by
          simp [pass2, hG, hA]]
        simp only [markCount, List.map_cons, List.zip_cons_cons, List.countP_cons] at *
        rw [ih]
        by_cases hc : gc = c
        · subst hc
          have heff : (if gc ∈ a then (cnt gc).toNat else 0) = 0 := by
            by_cases hm : gc ∈ a
            · have : ¬ (0 < cnt gc) := fun hpos => hA ⟨hm, hpos⟩
              simp only [if_pos hm]
              omega
            · simp [hm]
          rw [heff]
          simp [hG]
        · simp [hc]

theorem pass2_countG (a : List Char) (c : Char) : ∀ (l : List (Char × Char)) (cnt : Char → Int),
    markCount c (fun s => s == 'G') ((l.map Prod.fst).zip (pass2 a l cnt))
      = l.countP (fun p => p.1 == c && p.2 == 'G') := by
  intro l
  induction l with
  | nil => intro cnt; simp [pass2, markCount]
  | cons p rest ih =>
    intro cnt
    obtain ⟨gc, fb⟩ := p
    by_cases hG : fb = 'G'
    · subst hG
      rw [show pass2 a ((gc, 'G') :: rest) cnt = 'G' :: pass2 a rest cnt from by simp [pass2]]
      simp only [markCount, List.map_cons, List.zip_cons_cons, List.countP_cons] at *
      rw [ih]
    · by_cases hA : gc ∈ a ∧ 0 < cnt gc
      · rw [show pass2 a ((gc, fb) :: rest) cnt = 'A' :: pass2 a rest (decr cnt gc) from by
          simp [pass2, hG, hA]]
        simp only [markCount, List.map_cons, List.zip_cons_cons, List.countP_cons] at *
        rw [ih]
        simp [hG]
      · rw [show pass2 a ((gc, fb) :: rest) cnt = 'X' :: pass2 a rest cnt from by
          simp [pass2, hG, hA]]
        simp only [markCount, List.map_cons, List.zip_cons_cons, List.countP_cons] at *
        rw [ih]
        simp [hG]

theorem count_eq_countP_beq (l : List Char) (c : Char) :
    l.count c = l.countP (fun x => x == c) := by
  simp [List.count]

theorem countP_fst_zip (u : List Char) (v : List Char) (h : u.length ≤ v.length) (c : Char) :
    (u.zip v).countP (fun p => p.1 == c) = u.count c := by
  have hmap := List.countP_map (fun x => x == c) Prod.fst (u.zip v)
  rw [List.map_fst_zip u v h] at hmap
  rw [count_eq_countP_beq, hmap]
  apply List.countP_congr
  intro x _
  rfl

theorem markCount_or (c : Char) (m1 m2 : Char → Bool) (h : ∀ s, ¬(m1 s = true ∧ m2 s = true))
    (pairs : List (Char × Char)) :
    markCount c (fun s => m1 s || m2 s) pairs
      = markCount c m1 pairs + markCount c m2 pairs := by
  simp only [markCount]
  rw [List.countP_congr (q := fun p => (p.1 == c && m1 p.2) || (p.1 == c && m2 p.2))]
  · apply countP_disjoint
    intro x _ hx
    rcases hx with ⟨h1, h2⟩
    simp only [Bool.and_eq_true] at h1 h2
    exact h x.2 ⟨h1.2, h2.2⟩
  · intro x _
    cases hx1 : (x.1 == c) <;> cases hx2 : m1 x.2 <;> cases hx3 : m2 x.2 <;> simp_all

theorem markCount_total (c : Char) (pairs : List (Char × Char))
    (hm : ∀ p ∈ pairs, p.2 = 'G' ∨ p.2 = 'A' ∨ p.2 = 'X') :
    pairs.countP (fun p => p.1 == c)
      = markCount c (fun s => s == 'G' || s == 'A') pairs
        + markCount c (fun s => s == 'X') pairs := by
  have hdisj : ∀ s : Char, ¬((s == 'G' || s == 'A') = true ∧ (s == 'X') = true) := by
    intro s hcon
    obtain ⟨h1, h2⟩ := hcon
    simp only [Bool.or_eq_true, beq_iff_eq] at h1 h2
    rcases h1 with h1 | h1 <;> rw [h1] at h2 <;> exact absurd h2 (by decide)
  rw [← markCount_or c _ _ hdisj]
  simp only [markCount]
  apply List.countP_congr
  intro x hx
  rcases hm x hx with h3 | h3 | h3 <;> rw [h3] <;> cases hx1 : (x.1 == c) <;> simp

theorem feedback_core_length (g a : List Char) (h : g.length = a.length) :
    (feedback_core g a).length = g.length := by
  rw [feedback_core, pass2_length, List.length_zip, pass1_fst, List.length_map,
    List.length_zip, ← h]
  simp

theorem feedback_core_GA (g a : List Char) (h : g.length = a.length) (c : Char) :
    markCount c (fun s => s == 'G' || s == 'A') (g.zip (feedback_core g a))
      = min (g.count c) (a.count c) := by
  classical
  set w := g.zip a with hw
  set m : Char × Char → Char := fun p => if p.1 = p.2 then 'G' else 'X' with hm
  have hwg : w.map Prod.fst = g := List.map_fst_zip g a (le_of_eq h)
  have hwa : w.map Prod.snd = a := List.map_snd_zip g a (ge_of_eq h)
  have hfb1 : (pass1 w (initCounts a)).1 = w.map m := pass1_fst w (initCounts a)
  set l := g.zip (pass1 w (initCounts a)).1 with hl
  have hlw : l = w.map (fun p => (p.1, m p)) := by
    rw [hl, hfb1]
    calc g.zip (w.map m) = (w.map Prod.fst).zip (w.map m) := by rw [hwg]
      _ = w.map (fun p => (p.1, m p)) := List.zip_map' Prod.fst m w
  have hlfst : l.map Prod.fst = g := by
    rw [hlw, List.map_map]
    simpa using hwg
  set greens := w.countP (fun p => p.1 == c && p.1 == p.2) with hgr
  have hcnt : (pass1 w (initCounts a)).2 c = (a.count c : Int) - greens := by
    rw [pass1_snd, initCounts, hgr]
    congr 2
    apply List.countP_congr
    intro x _
    cases hx1 : (x.1 == x.2) <;> cases hx2 : (x.1 == c) <;> simp_all
  have hgle_a : greens ≤ a.count c := by
    rw [count_eq_countP_beq, ← hwa, List.countP_map, hgr]
    apply List.countP_mono_left
    intro x _ hx
    simp only [Bool.and_eq_true, beq_iff_eq] at hx
    simp [Function.comp, ← hx.2, hx.1]
  have hgle_g : greens ≤ g.count c := by
    rw [count_eq_countP_beq, ← hwg, List.countP_map, hgr]
    apply List.countP_mono_left
    intro x _ hx
    simp only [Bool.and_eq_true, beq_iff_eq] at hx
    simp [Function.comp, hx.1]
  have htot : w.countP (fun p => p.1 == c) = g.count c := by
    rw [count_eq_countP_beq, ← hwg, List.countP_map]
    rfl
  have hsplit : g.count c
      = greens + w.countP (fun p => p.1 == c && !(p.1 == p.2)) := by
    rw [← htot, hgr]
    rw [List.countP_congr (q := fun p =>
      (p.1 == c && (p.1 == p.2)) || (p.1 == c && !(p.1 == p.2)))]
    · apply countP_disjoint
      intro x _ hx
      rcases hx with ⟨h1, h2⟩
      simp only [Bool.and_eq_true] at h1 h2
      rw [h1.2] at h2
      simp at h2
    · intro x _
      cases hx1 : (x.1 == c) <;> cases hx2 : (x.1 == x.2) <;> simp_all
  have hG : markCount c (fun s => s == 'G')
        ((l.map Prod.fst).zip (pass2 a l (pass1 w (initCounts a)).2))
      = greens := by
    rw [pass2_countG, hlw, List.countP_map, hgr]
    apply List.countP_congr
    intro x _
    simp only [Function.comp]
    by_cases hx2 : x.1 = x.2
    · simp [hm, hx2]
    · simp [hm, hx2]
  have hA : markCount c (fun s => s == 'A')
        ((l.map Prod.fst).zip (pass2 a l (pass1 w (initCounts a)).2))
      = min (a.count c - greens) (g.count c - greens) := by
    rw [pass2_countA]
    have hnonG : l.countP (fun p => p.1 == c && !(p.2 == 'G'))
        = w.countP (fun p => p.1 == c && !(p.1 == p.2)) := by
      rw [hlw, List.countP_map]
      apply List.countP_congr
      intro x _
      simp only [Function.comp]
      by_cases hx2 : x.1 = x.2
      · simp [hm, hx2]
      · simp [hm, hx2]
    rw [hnonG]
    have heff : (if c ∈ a then ((pass1 w (initCounts a)).2 c).toNat else 0)
        = a.count c - greens := by
      by_cases hmem : c ∈ a
      · rw [if_pos hmem, hcnt]
        omega
      · rw [if_neg hmem]
        have : a.count c = 0 := List.count_eq_zero.mpr hmem
        omega
    rw [heff]
    have hng : w.countP (fun p => p.1 == c && !(p.1 == p.2)) = g.count c - greens := by
      omega
    rw [hng]
  have e1 : g.zip (feedback_core g a)
      = (l.map Prod.fst).zip (pass2 a l (pass1 w (initCounts a)).2) := by
    rw [hlfst]
    rfl
  have hdisjGA : ∀ s : Char, ¬((s == 'G') = true ∧ (s == 'A') = true) := by
    intro s hcon
    obtain ⟨h1, h2⟩ := hcon
    simp only [beq_iff_eq] at h1 h2
    rw [h1] at h2
    exact absurd h2 (by decide)
  rw [e1, markCount_or c _ _ hdisjGA, hG, hA]
  omega

theorem feedback_core_X (g a : List Char) (h : g.length = a.length) (c : Char) :
    markCount c (fun s => s == 'X') (g.zip (feedback_core g a))
      = g.count c - min (g.count c) (a.count c) := by
  have hmemfb : ∀ p ∈ g.zip (feedback_core g a), p.2 = 'G' ∨ p.2 = 'A' ∨ p.2 = 'X' := by
    intro p hp
    obtain ⟨x, y⟩ := p
    have := (List.of_mem_zip hp).2
    exact pass2_mem_GAX a _ _ y this
  have htot := markCount_total c (g.zip (feedback_core g a)) hmemfb
  rw [countP_fst_zip g (feedback_core g a) (le_of_eq (feedback_core_length g a h).symm) c] at htot
  rw [feedback_core_GA g a h c] at htot
  omega

theorem buildCriteria_proj : ∀ (l : List (Char × Char)) (i : Nat) (st : Criteria),
    buildCriteria i l st
      = ⟨foldKnown i l st.known_letters, foldSetAdd 'A' l st.unlocated_letters,
         foldSetAdd 'X' l st.letters_not_in_word, foldPosExcl i l st.position_exclusions⟩ := by
  intro l
  induction l with
  | nil => intro i st; rfl
  | cons p rest ih =>
    intro i st
    rw [buildCriteria, ih, foldKnown, foldSetAdd, foldSetAdd, foldPosExcl]
    by_cases hG : p.2 = 'G'
    · simp [criteriaStep, hG]
    · by_cases hA : p.2 = 'A'
      · simp [criteriaStep, hG, hA]
      · by_cases hX : p.2 = 'X'
        · simp [criteriaStep, hG, hA, hX]
        · simp [criteriaStep, hG, hA, hX]

theorem setAt_eq_set (i : Nat) (c : Char) (l : List Char) (h : i < l.length) :
    setAt i c l = l.set i c := by
  rw [setAt, List.set_eq_take_append_cons_drop, if_pos h]

theorem setAt_length (i : Nat) (c : Char) (l : List Char) (h : i < l.length) :
    (setAt i c l).length = l.length := by
  rw [setAt_eq_set i c l h, List.length_set]

theorem foldKnown_length : ∀ (l : List (Char × Char)) (i : Nat) (k : List Char),
    i + l.length ≤ k.length → (foldKnown i l k).length = k.length := by
  intro l
  induction l with
  | nil => intro i k _; rfl
  | cons p rest ih =>
    intro i k hb
    rw [foldKnown]
    by_cases hG : p.2 = 'G'
    · rw [if_pos hG]
      have hik : i < k.length := by simp at hb; omega
      have h1 : (setAt i p.1 k).length = k.length := setAt_length i p.1 k hik
      rw [ih (i + 1) _ (by rw [h1]; simp at hb ⊢; omega), h1]
    · rw [if_neg hG]
      exact ih (i + 1) k (by simp at hb ⊢; omega)

theorem setAt_getD (i j : Nat) (c : Char) (l : List Char) (hi : i < l.length) (hj : j < l.length) :
    (setAt i c l).getD j '-' = if i = j then c else l.getD j '-' := by
  rw [setAt_eq_set i c l hi]
  rw [List.getD_eq_getElem _ _ (by rw [List.length_set]; exact hj)]
  rw [List.getElem_set]
  by_cases h : i = j
  · rw [if_pos h, if_pos h]
  · rw [if_neg h, if_neg h, List.getD_eq_getElem _ _ hj]

theorem foldKnown_getD : ∀ (l : List (Char × Char)) (i : Nat) (k : List Char) (j : Nat),
    i + l.length ≤ k.length → j < k.length →
    (foldKnown i l k).getD j '-'
      = if i ≤ j ∧ j < i + l.length then
          (if (l.getD (j - i) ('-', '-')).2 = 'G' then (l.getD (j - i) ('-', '-')).1
           else k.getD j '-')
        else k.getD j '-' := by
  intro l
  induction l with
  | nil =>
    intro i k j _ _
    rw [foldKnown]
    have hno : ¬(i ≤ j ∧ j < i + ([] : List (Char × Char)).length) := by
      simp only [List.length_nil, Nat.add_zero]
      omega
    rw [if_neg hno]
  | cons p rest ih =>
    intro i k j hb hj
    simp only [List.length_cons] at hb
    rw [foldKnown]
    simp only [List.length_cons]
    by_cases hG : p.2 = 'G'
    · rw [if_pos hG]
      have hik : i < k.length := by omega
      have hlen : (setAt i p.1 k).length = k.length := setAt_length i p.1 k hik
      rw [ih (i + 1) (setAt i p.1 k) j (by omega) (by omega)]
      by_cases hwin : i + 1 ≤ j ∧ j < i + 1 + rest.length
      · have hwin2 : i ≤ j ∧ j < i + (rest.length + 1) := by omega
        rw [if_pos hwin, if_pos hwin2]
        have hji : j - i = (j - (i + 1)) + 1 := by omega
        rw [hji]
        simp only [List.getD_cons_succ]
        by_cases hrG : (rest.getD (j - (i + 1)) ('-', '-')).2 = 'G'
        · rw [if_pos hrG, if_pos hrG]
        · rw [if_neg hrG, if_neg hrG, setAt_getD i j p.1 k hik hj]
          have hij : ¬(i = j) := by omega
          rw [if_neg hij]
      · rw [if_neg hwin]
        by_cases hji : j = i
        · subst hji
          have hwin2 : j ≤ j ∧ j < j + (rest.length + 1) := by omega
          rw [if_pos hwin2]
          have hz : j - j = 0 := by omega
          rw [hz]
          simp only [List.getD_cons_zero]
          rw [setAt_getD j j p.1 k hik hj, if_pos rfl, if_pos hG]
        · have hwin2 : ¬(i ≤ j ∧ j < i + (rest.length + 1)) := by omega
          rw [if_neg hwin2, setAt_getD i j p.1 k hik hj]
          have hij : ¬(i = j) := by omega
          rw [if_neg hij]
    · rw [if_neg hG]
      rw [ih (i + 1) k j (by omega) hj]
      by_cases hwin : i + 1 ≤ j ∧ j < i + 1 + rest.length
      · have hwin2 : i ≤ j ∧ j < i + (rest.length + 1) := by omega
        rw [if_pos hwin, if_pos hwin2]
        have hji : j - i = (j - (i + 1)) + 1 := by omega
        rw [hji]
        simp only [List.getD_cons_succ]
      · rw [if_neg hwin]
        by_cases hji : j = i
        · subst hji
          have hwin2 : j ≤ j ∧ j < j + (rest.length + 1) := by omega
          rw [if_pos hwin2]
          have hz : j - j = 0 := by omega
          rw [hz]
          simp only [List.getD_cons_zero]
          rw [if_neg hG]
        · have hwin2 : ¬(i ≤ j ∧ j < i + (rest.length + 1)) := by omega
          rw [if_neg hwin2]

theorem foldSetAdd_mem (mk : Char) : ∀ (l : List (Char × Char)) (u : List Char) (c : Char),
    c ∈ foldSetAdd mk l u ↔ c ∈ u ∨ ∃ q ∈ l, q.2 = mk ∧ q.1 = c := by
  intro l
  induction l with
  | nil => intro u c; simp [foldSetAdd]
  | cons p rest ih =>
    intro u c
    rw [foldSetAdd]
    by_cases hmk : p.2 = mk
    · rw [if_pos hmk, ih]
      unfold addIfAbsent
      by_cases hc : p.1 ∈ u
      · rw [if_pos hc]
        constructor
        · rintro (h | ⟨q, hq, h2, h3⟩)
          · exact Or.inl h
          · exact Or.inr ⟨q, List.mem_cons_of_mem p hq, h2, h3⟩
        · rintro (h | ⟨q, hq, h2, h3⟩)
          · exact Or.inl h
          · rcases List.mem_cons.mp hq with rfl | hq2
            · subst h3; exact Or.inl hc
            · exact Or.inr ⟨q, hq2, h2, h3⟩
      · rw [if_neg hc]
        constructor
        · rintro (h | ⟨q, hq, h2, h3⟩)
          · rcases List.mem_append.mp h with h4 | h4
            · exact Or.inl h4
            · simp at h4
              subst h4
              exact Or.inr ⟨p, List.mem_cons_self p rest, hmk, rfl⟩
          · exact Or.inr ⟨q, List.mem_cons_of_mem p hq, h2, h3⟩
        · rintro (h | ⟨q, hq, h2, h3⟩)
          · exact Or.inl (List.mem_append.mpr (Or.inl h))
          · rcases List.mem_cons.mp hq with rfl | hq2
            · subst h3
              exact Or.inl (List.mem_append.mpr (Or.inr (by simp)))
            · exact Or.inr ⟨q, hq2, h2, h3⟩
    · rw [if_neg hmk, ih]
      constructor
      · rintro (h | ⟨q, hq, h2, h3⟩)
        · exact Or.inl h
        · exact Or.inr ⟨q, List.mem_cons_of_mem p hq, h2, h3⟩
      · rintro (h | ⟨q, hq, h2, h3⟩)
        · exact Or.inl h
        · rcases List.mem_cons.mp hq with rfl | hq2
          · exact absurd h2 hmk
          · exact Or.inr ⟨q, hq2, h2, h3⟩

theorem foldPosExcl_length : ∀ (l : List (Char × Char)) (i : Nat) (pe : List (List Char)),
    (foldPosExcl i l pe).length = pe.length := by
  intro l
  induction l with
  | nil => intro i pe; rfl
  | cons p rest ih =>
    intro i pe
    rw [foldPosExcl]
    by_cases hA : p.2 = 'A'
    · rw [if_pos hA, ih, List.length_set]
    · rw [if_neg hA, ih]

theorem set_getD_list (i j : Nat) (v : List Char) (pe : List (List Char)) (hj : j < pe.length) :
    (pe.set i v).getD j [] = if i = j then v else pe.getD j [] := by
  rw [List.getD_eq_getElem _ _ (by rw [List.length_set]; exact hj), List.getElem_set]
  by_cases h : i = j
  · rw [if_pos h, if_pos h]
  · rw [if_neg h, if_neg h, List.getD_eq_getElem _ _ hj]

theorem foldPosExcl_getD : ∀ (l : List (Char × Char)) (i : Nat) (pe : List (List Char)) (j : Nat),
    i + l.length ≤ pe.length → j < pe.length →
    (foldPosExcl i l pe).getD j []
      = if i ≤ j ∧ j < i + l.length then
          (if (l.getD (j - i) ('-', '-')).2 = 'A' then
            addIfAbsent (l.getD (j - i) ('-', '-')).1 (pe.getD j [])
           else pe.getD j [])
        else pe.getD j [] := by
  intro l
  induction l with
  | nil =>
    intro i pe j _ _
    rw [foldPosExcl]
    have hno : ¬(i ≤ j ∧ j < i + ([] : List (Char × Char)).length) := by
      simp only [List.length_nil, Nat.add_zero]
      omega
    rw [if_neg hno]
  | cons p rest ih =>
    intro i pe j hb hj
    simp only [List.length_cons] at hb
    rw [foldPosExcl]
    simp only [List.length_cons]
    by_cases hA : p.2 = 'A'
    · rw [if_pos hA]
      have hik : i < pe.length := by omega
      rw [ih (i + 1) (pe.set i (addIfAbsent p.1 (pe.getD i []))) j
        (by rw [List.length_set]; omega) (by rw [List.length_set]; exact hj)]
      by_cases hwin : i + 1 ≤ j ∧ j < i + 1 + rest.length
      · have hwin2 : i ≤ j ∧ j < i + (rest.length + 1) := by omega
        rw [if_pos hwin, if_pos hwin2]
        have hji : j - i = (j - (i + 1)) + 1 := by omega
        rw [hji]
        simp only [List.getD_cons_succ]
        by_cases hrA : (rest.getD (j - (i + 1)) ('-', '-')).2 = 'A'
        · rw [if_pos hrA, if_pos hrA, set_getD_list i j _ pe hj]
          have hij : ¬(i = j) := by omega
          rw [if_neg hij]
        · rw [if_neg hrA, if_neg hrA, set_getD_list i j _ pe hj]
          have hij : ¬(i = j) := by omega
          rw [if_neg hij]
      · rw [if_neg hwin]
        by_cases hji : j = i
        · subst hji
          have hwin2 : j ≤ j ∧ j < j + (rest.length + 1) := by omega
          rw [if_pos hwin2]
          have hz : j - j = 0 := by omega
          rw [hz]
          simp only [List.getD_cons_zero]
          rw [set_getD_list j j _ pe hj, if_pos rfl, if_pos hA]
        · have hwin2 : ¬(i ≤ j ∧ j < i + (rest.length + 1)) := by omega
          rw [if_neg hwin2, set_getD_list i j _ pe hj]
          have hij : ¬(i = j) := by omega
          rw [if_neg hij]
    · rw [if_neg hA]
      rw [ih (i + 1) pe j (by omega) hj]
      by_cases hwin : i + 1 ≤ j ∧ j < i + 1 + rest.length
      · have hwin2 : i ≤ j ∧ j < i + (rest.length + 1) := by omega
        rw [if_pos hwin, if_pos hwin2]
        have hji : j - i = (j - (i + 1)) + 1 := by omega
        rw [hji]
        simp only [List.getD_cons_succ]
      · rw [if_neg hwin]
        by_cases hji : j = i
        · subst hji
          have hwin2 : j ≤ j ∧ j < j + (rest.length + 1) := by omega
          rw [if_pos hwin2]
          have hz : j - j = 0 := by omega
          rw [hz]
          simp only [List.getD_cons_zero]
          rw [if_neg hA]
        · have hwin2 : ¬(i ≤ j ∧ j < i + (rest.length + 1)) := by omega
          rw [if_neg hwin2]

theorem pass2_getElem (a : List Char) : ∀ (l : List (Char × Char)) (cnt : Char → Int) (i : Nat)
    (hi : i < l.length) (hi2 : i < (pass2 a l cnt).length),
    ((pass2 a l cnt)[i] = 'G' ↔ (l[i]).2 = 'G')
    ∧ ((pass2 a l cnt)[i] = 'A' → (l[i]).1 ∈ a) := by
  intro l
  induction l with
  | nil => intro cnt i hi _; simp at hi
  | cons p rest ih =>
    intro cnt i hi hi2
    obtain ⟨gc, fb⟩ := p
    by_cases hG : fb = 'G'
    · subst hG
      have e : pass2 a ((gc, 'G') :: rest) cnt = 'G' :: pass2 a rest cnt := by simp [pass2]
      cases i with
      | zero => simp [e]
      | succ n =>
        have hn : n < rest.length := by simp at hi; omega
        have hn2 : n < (pass2 a rest cnt).length := by rw [pass2_length]; exact hn
        have h1 := ih cnt n hn hn2
        constructor
        · rw [show ((pass2 a ((gc, 'G') :: rest) cnt)[n + 1])
              = (pass2 a rest cnt)[n] from by simp [e]]
          simpa using h1.1
        · rw [show ((pass2 a ((gc, 'G') :: rest) cnt)[n + 1])
              = (pass2 a rest cnt)[n] from by simp [e]]
          simpa using h1.2
    · by_cases hA : gc ∈ a ∧ 0 < cnt gc
      · have e : pass2 a ((gc, fb) :: rest) cnt = 'A' :: pass2 a rest (decr cnt gc) := by
          simp [pass2, hG, hA]
        cases i with
        | zero =>
          simp [e]
          constructor
          · exact hG
          · exact hA.1
        | succ n =>
          have hn : n < rest.length := by simp at hi; omega
          have hn2 : n < (pass2 a rest (decr cnt gc)).length := by rw [pass2_length]; exact hn
          have h1 := ih (decr cnt gc) n hn hn2
          constructor
          · rw [show ((pass2 a ((gc, fb) :: rest) cnt)[n + 1])
                = (pass2 a rest (decr cnt gc))[n] from by simp [e]]
            simpa using h1.1
          · rw [show ((pass2 a ((gc, fb) :: rest) cnt)[n + 1])
                = (pass2 a rest (decr cnt gc))[n] from by simp [e]]
            simpa using h1.2
      · have e : pass2 a ((gc, fb) :: rest) cnt = 'X' :: pass2 a rest cnt := by
          simp [pass2, hG, hA]
        cases i with
        | zero =>
          simp [e]
          exact hG
        | succ n =>
          have hn : n < rest.length := by simp at hi; omega
          have hn2 : n < (pass2 a rest cnt).length := by rw [pass2_length]; exact hn
          have h1 := ih cnt n hn hn2
          constructor
          · rw [show ((pass2 a ((gc, fb) :: rest) cnt)[n + 1])
                = (pass2 a rest cnt)[n] from by simp [e]]
            simpa using h1.1
          · rw [show ((pass2 a ((gc, fb) :: rest) cnt)[n + 1])
                = (pass2 a rest cnt)[n] from by simp [e]]
            simpa using h1.2

theorem feedback_core_getElem (g a : List Char) (h : g.length = a.length) (i : Nat)
    (hi : i < g.length) (hif : i < (feedback_core g a).length) :
    ((feedback_core g a)[i] = 'G' ↔ g[i] = a[i])
    ∧ ((feedback_core g a)[i] = 'A' → g[i] ∈ a) := by
  have hw : (g.zip a).length = g.length := by
    rw [List.length_zip, h]
    simp
  have hfb1len : ((pass1 (g.zip a) (initCounts a)).1).length = g.length := by
    rw [pass1_fst, List.length_map, hw]
  have hllen : (g.zip (pass1 (g.zip a) (initCounts a)).1).length = g.length := by
    rw [List.length_zip, hfb1len]
    simp
  have hmaplen : ((g.zip a).map (fun p => if p.1 = p.2 then 'G' else 'X')).length = g.length := by
    rw [List.length_map, hw]
  have hfb : feedback_core g a
      = pass2 a (g.zip (pass1 (g.zip a) (initCounts a)).1) (pass1 (g.zip a) (initCounts a)).2 :=
    rfl
  have hget := pass2_getElem a (g.zip (pass1 (g.zip a) (initCounts a)).1)
    (pass1 (g.zip a) (initCounts a)).2 i (by rw [hllen]; exact hi)
    (by rw [pass2_length, hllen]; exact hi)
  have hli : (g.zip (pass1 (g.zip a) (initCounts a)).1)[i]
      = (g[i], (pass1 (g.zip a) (initCounts a)).1[i]) :=
    List.getElem_zip
  have hfb1i : (pass1 (g.zip a) (initCounts a)).1[i]
      = if g[i] = a[i] then 'G' else 'X' := by
    have e1 : (pass1 (g.zip a) (initCounts a)).1
        = (g.zip a).map (fun p => if p.1 = p.2 then 'G' else 'X') := pass1_fst _ _
    rw [show ((pass1 (g.zip a) (initCounts a)).1[i])
        = ((g.zip a).map (fun p => if p.1 = p.2 then 'G' else 'X'))[i] from by congr 1]
    rw [List.getElem_map]
    congr 1
    rw [show ((g.zip a)[i]) = (g[i], a[i]) from
      List.getElem_zip]
  refine ⟨?_, ?_⟩
  · have e2 := hget.1
    rw [hli] at e2
    simp only [hfb1i] at e2
    by_cases he : g[i] = a[i]
    · simp only [if_pos he] at e2
      constructor
      · intro _
        exact he
      · intro _
        exact e2.mpr trivial
    · simp only [if_neg he] at e2
      constructor
      · intro hg2
        exfalso
        have hx := e2.mp hg2
        exact absurd hx (by decide)
      · intro hcon
        exact absurd hcon he
  · intro hA
    have e3 := hget.2 hA
    rw [hli] at e3
    exact e3

theorem toLower_toLower (c : Char) : (Char.toLower c).toLower = Char.toLower c := by
  unfold Char.toLower
  by_cases h : c.toNat ≥ 65 ∧ c.toNat ≤ 90
  · rw [if_pos h]
    have hv : (c.toNat + 32).isValidChar := by
      left
      have h2 : c.toNat ≤ 90 := h.2
      have h3 : c.toNat + 32 < 55296 := by omega
      simpa using h3
    have hval : (Char.ofNat (c.toNat + 32)).toNat = c.toNat + 32 := by
      rw [Char.ofNat, dif_pos hv]
      rfl
    rw [hval]
    have hng : ¬(c.toNat + 32 ≥ 65 ∧ c.toNat + 32 ≤ 90) := by
      intro hcon
      have := h.1
      omega
    rw [if_neg hng]
  · rw [if_neg h, if_neg h]

theorem lowerWord_idem (w : List Char) : lowerWord (lowerWord w) = lowerWord w := by
  unfold lowerWord
  rw [List.map_map]
  apply List.map_congr_left
  intro c _
  exact toLower_toLower c

theorem toLower_eq_dash (c : Char) : Char.toLower c = '-' ↔ c = '-' := by
  constructor
  · intro h
    unfold Char.toLower at h
    by_cases hc : c.toNat ≥ 65 ∧ c.toNat ≤ 90
    · rw [if_pos hc] at h
      exfalso
      have hv : (c.toNat + 32).isValidChar := by
        left
        have h2 : c.toNat ≤ 90 := hc.2
        have h3 : c.toNat + 32 < 55296 := by omega
        simpa using h3
      have hval : (Char.ofNat (c.toNat + 32)).toNat = c.toNat + 32 := by
        rw [Char.ofNat, dif_pos hv]
        rfl
      have : ('-' : Char).toNat = 45 := by decide
      rw [h] at hval
      rw [this] at hval
      omega
    · rw [if_neg hc] at h
      exact h
  · intro h
    subst h
    decide

theorem upperWord_GAX (p : List Char) (hp : ∀ s ∈ p, s = 'G' ∨ s = 'A' ∨ s = 'X') :
    upperWord p = p := by
  unfold upperWord
  have : ∀ s ∈ p, Char.toUpper s = s := by
    intro s hs
    rcases hp s hs with h | h | h <;> subst h <;> decide
  calc p.map Char.toUpper = p.map id := List.map_congr_left this
    _ = p := List.map_id p

theorem markCount_GA_pos (g x : List Char) (h : g.length = x.length) (c : Char)
    (hg : c ∈ g) (hx : c ∈ x) :
    0 < markCount c (fun s => s == 'G' || s == 'A') (g.zip (feedback_core g x)) := by
  rw [feedback_core_GA g x h c]
  have h1 : 0 < g.count c := List.count_pos_iff.mpr hg
  have h2 : 0 < x.count c := List.count_pos_iff.mpr hx
  omega

theorem feedback_eq_passes (g w x : List Char)
    (hg5 : g.length = 5) (hw5 : w.length = 5) (hx5 : x.length = 5)
    (hdash : '-' ∉ g)
    (hfb : feedback_core g x = feedback_core g w) :
    criteriaPass g (feedback_core g w) x = true := by
  have hgw : g.length = w.length := by omega
  have hgx : g.length = x.length := by omega
  have hp5 : (feedback_core g w).length = 5 := by
    rw [feedback_core_length g w hgw, hg5]
  have hzl5 : (g.zip (feedback_core g w)).length = 5 := by
    rw [List.length_zip, hg5, hp5]
    simp
  have hfxlen : (feedback_core g x).length = 5 := by
    rw [feedback_core_length g x hgx, hg5]
  -- the four component structures
  rw [criteriaPass, buildCriteria_proj]
  simp only [initCriteria, Bool.and_eq_true]
  have hkl : (foldKnown 0 (g.zip (feedback_core g w)) (List.replicate 5 '-')).length = 5 := by
    rw [foldKnown_length _ 0 _ (by rw [List.length_replicate]; omega), List.length_replicate]
  have hknown : ∀ j, j < 5 →
      (foldKnown 0 (g.zip (feedback_core g w)) (List.replicate 5 '-')).getD j '-'
        = if ((g.zip (feedback_core g w)).getD j ('-', '-')).2 = 'G' then
            ((g.zip (feedback_core g w)).getD j ('-', '-')).1
          else '-' := by
    intro j hj
    rw [foldKnown_getD _ 0 _ j (by rw [List.length_replicate]; omega)
      (by rw [List.length_replicate]; exact hj)]
    have hwin : 0 ≤ j ∧ j < 0 + (g.zip (feedback_core g w)).length := by omega
    rw [if_pos hwin]
    by_cases hG : ((g.zip (feedback_core g w)).getD (j - 0) ('-', '-')).2 = 'G'
    · have hz : j - 0 = j := by omega
      rw [hz] at hG ⊢
      rw [if_pos hG, if_pos hG]
    · have hz : j - 0 = j := by omega
      rw [hz] at hG ⊢
      rw [if_neg hG, if_neg hG]
      rw [List.getD_eq_getElem _ _ (by rw [List.length_replicate]; exact hj)]
      rw [List.getElem_replicate]
  have hpe : ∀ j, j < 5 →
      (foldPosExcl 0 (g.zip (feedback_core g w)) (List.replicate 5 [])).getD j []
        = if ((g.zip (feedback_core g w)).getD j ('-', '-')).2 = 'A' then
            [((g.zip (feedback_core g w)).getD j ('-', '-')).1]
          else [] := by
    intro j hj
    rw [foldPosExcl_getD _ 0 _ j (by rw [List.length_replicate]; omega)
      (by rw [List.length_replicate]; exact hj)]
    have hwin : 0 ≤ j ∧ j < 0 + (g.zip (feedback_core g w)).length := by omega
    rw [if_pos hwin]
    have hz : j - 0 = j := by omega
    rw [hz]
    have hrep : (List.replicate 5 ([] : List Char)).getD j []
        = ([] : List Char) := by
      rw [List.getD_eq_getElem _ _ (by rw [List.length_replicate]; exact hj)]
      rw [List.getElem_replicate]
    by_cases hA : ((g.zip (feedback_core g w)).getD j ('-', '-')).2 = 'A'
    · rw [if_pos hA, if_pos hA, hrep]
      rfl
    · rw [if_neg hA, if_neg hA, hrep]
  -- getElem form of zip entries
  have hzget : ∀ j (hj : j < 5),
      (g.zip (feedback_core g w)).getD j ('-', '-')
        = (g[j], (feedback_core g w)[j]) := by
    intro j hj
    rw [List.getD_eq_getElem _ _ (by rw [hzl5]; exact hj)]
    exact List.getElem_zip
  refine ⟨⟨⟨?_, ?_⟩, ?_⟩, ?_⟩
  · -- matchesKnown
    rw [matchesKnown, List.all_eq_true]
    intro q hq
    rw [List.mem_iff_getElem] at hq
    obtain ⟨j, hjlt, hjq⟩ := hq
    have hj5 : j < 5 := by
      have := hjlt
      rw [List.length_zip, hkl, hx5] at this
      omega
    rw [List.getElem_zip] at hjq
    have hkj : (foldKnown 0 (g.zip (feedback_core g w)) (List.replicate 5 '-'))[j]
        = (foldKnown 0 (g.zip (feedback_core g w)) (List.replicate 5 '-')).getD j '-' := by
      rw [List.getD_eq_getElem _ _ (by rw [hkl]; exact hj5)]
    subst hjq
    simp only [hkj, hknown j hj5, hzget j hj5]
    by_cases hG : (feedback_core g w)[j] = 'G'
    · rw [if_pos hG]
      have hfbx : (feedback_core g x)[j] = 'G' := by
        rw [List.getElem_of_eq hfb]
        exact hG
      have := (feedback_core_getElem g x hgx j (by omega)
        (by rw [feedback_core_length g x hgx]; omega)).1.mp hfbx
      simp [this]
    · rw [if_neg hG]
      simp
  · -- containsAll
    rw [containsAll, List.all_eq_true]
    intro c hc
    rw [foldSetAdd_mem] at hc
    rcases hc with hc | ⟨q, hq, hq2, hq1⟩
    · simp at hc
    · have hcg : c ∈ g := by
        have := (List.of_mem_zip hq).1
        rw [hq1] at this
        exact this
      have hA : 0 < markCount c (fun s => s == 'A') (g.zip (feedback_core g w)) := by
        rw [markCount, List.countP_pos_iff]
        exact ⟨q, hq, by simp [hq1, hq2]⟩
      have hGA : 0 < markCount c (fun s => s == 'G' || s == 'A') (g.zip (feedback_core g w)) := by
        have hdisjGA : ∀ s : Char, ¬((s == 'G') = true ∧ (s == 'A') = true) := by
          intro s hcon
          obtain ⟨h1, h2⟩ := hcon
          simp only [beq_iff_eq] at h1 h2
          rw [h1] at h2
          exact absurd h2 (by decide)
        rw [markCount_or c _ _ hdisjGA]
        omega
      rw [← hfb] at hGA
      rw [feedback_core_GA g x hgx c] at hGA
      have : 0 < x.count c := by omega
      have hcx : c ∈ x := List.count_pos_iff.mp this
      exact List.elem_iff.mpr hcx
  · -- positionOk
    rw [positionOk, List.all_eq_true]
    intro q hq
    rw [List.mem_iff_getElem] at hq
    obtain ⟨j, hjlt, hjq⟩ := hq
    have hpelen : (foldPosExcl 0 (g.zip (feedback_core g w)) (List.replicate 5 [])).length = 5 := by
      rw [foldPosExcl_length, List.length_replicate]
    have hj5 : j < 5 := by
      have := hjlt
      rw [List.length_zip, hpelen, hx5] at this
      omega
    rw [List.getElem_zip] at hjq
    have hpej : (foldPosExcl 0 (g.zip (feedback_core g w)) (List.replicate 5 []))[j]
        = (foldPosExcl 0 (g.zip (feedback_core g w)) (List.replicate 5 [])).getD j [] := by
      rw [List.getD_eq_getElem _ _ (by rw [hpelen]; exact hj5)]
    subst hjq
    simp only [hpej, hpe j hj5, hzget j hj5]
    by_cases hA : (feedback_core g w)[j] = 'A'
    · rw [if_pos hA]
      have hfbx : (feedback_core g x)[j] = 'A' := by
        rw [List.getElem_of_eq hfb]
        exact hA
      have hne : ¬(g[j] = x[j]) := by
        intro heq
        have := (feedback_core_getElem g x hgx j (by omega)
          (by rw [feedback_core_length g x hgx]; omega)).1.mpr heq
        rw [hfbx] at this
        exact absurd this (by decide)
      simp only [List.contains_cons]
      simp [List.contains]
      intro hcon
      exact hne hcon.symm
    · rw [if_neg hA]
      simp [List.contains]
  · -- excludesAll
    rw [excludesAll, List.all_eq_true]
    intro c hc
    rw [pruneNotin] at hc
    rw [List.mem_filter] at hc
    obtain ⟨hc1, hc2⟩ := hc
    rw [List.mem_filter] at hc1
    obtain ⟨hc0, hc3⟩ := hc1
    rw [decide_eq_true_eq] at hc2 hc3
    rw [foldSetAdd_mem] at hc0
    rcases hc0 with hc0 | ⟨q, hq, hq2, hq1⟩
    · simp at hc0
    · have hcg : c ∈ g := by
        have := (List.of_mem_zip hq).1
        rw [hq1] at this
        exact this
      simp only [Bool.not_eq_true']
      rw [show (x.contains c = false) ↔ ¬(x.contains c = true) from by simp]
      intro hcx0
      have hcx : c ∈ x := List.elem_iff.mp hcx0
      have hGA := markCount_GA_pos g x hgx c hcg hcx
      rw [hfb] at hGA
      rw [markCount, List.countP_pos_iff] at hGA
      obtain ⟨q2, hq2mem, hq2p⟩ := hGA
      simp only [Bool.and_eq_true, Bool.or_eq_true, beq_iff_eq] at hq2p
      obtain ⟨hq2c, hq2GA⟩ := hq2p
      rcases hq2GA with hq2G | hq2A
      · -- the letter is green somewhere: it is a known letter, contradiction
        apply hc3
        rw [List.mem_iff_getElem] at hq2mem
        obtain ⟨j, hjlt, hjq⟩ := hq2mem
        have hj5 : j < 5 := by
          rw [hzl5] at hjlt
          exact hjlt
        rw [List.mem_filter]
        constructor
        · rw [List.mem_iff_getElem]
          refine ⟨j, by rw [hkl]; exact hj5, ?_⟩
          have := hknown j hj5
          rw [List.getD_eq_getElem _ _ (by rw [hkl]; exact hj5)] at this
          rw [this]
          rw [List.getD_eq_getElem _ _ (by rw [hzl5]; exact hj5)]
          rw [hjq, hq2G]
          rw [if_pos rfl]
          exact hq2c
        · rw [decide_eq_true_eq]
          intro hcd
          apply hdash
          rw [← hcd]
          exact hcg
      · -- the letter is amber somewhere: it is an unlocated letter, contradiction
        apply hc2
        rw [foldSetAdd_mem]
        right
        exact ⟨q2, hq2mem, hq2A, hq2c⟩

theorem bucket_le_criteria_count (g w : List Char) (C : List (List Char))
    (hg5 : g.length = 5) (hC : ∀ x ∈ C, x.length = 5) (hw5 : w.length = 5) (hdash : '-' ∉ g) :
    (C.filter (fun x => feedback_core g x == feedback_core g w)).length
      ≤ criteria_count g (feedback_core g w) C := by
  rw [criteria_count, ← List.countP_eq_length_filter, ← List.countP_eq_length_filter]
  apply List.countP_mono_left
  intro x hx hbx
  rw [beq_iff_eq] at hbx
  exact feedback_eq_passes g w x hg5 hw5 (hC x hx) hdash hbx

theorem filter_length_partition (f : List Char → List Char) (l : List (List Char)) :
    ∑ b ∈ (l.map f).toFinset, (l.filter (fun w => f w == b)).length = l.length := by
  induction l with
  | nil => simp
  | cons a t ih =>
    have hfilter : ∀ b, ((a :: t).filter (fun w => f w == b)).length
        = (if f a = b then 1 else 0) + (t.filter (fun w => f w == b)).length := by
      intro b
      rw [List.filter_cons]
      by_cases hab : f a = b
      · rw [if_pos (by simp [hab]), if_pos hab, List.length_cons]
        omega
      · rw [if_neg (by simp [hab]), if_neg hab]
        omega
    have hstep : ((a :: t).map f).toFinset = insert (f a) (t.map f).toFinset := by
      simp
    rw [hstep]
    by_cases hmem : f a ∈ (t.map f).toFinset
    · rw [Finset.insert_eq_self.mpr hmem]
      have hsum : ∑ b ∈ (t.map f).toFinset, ((a :: t).filter (fun w => f w == b)).length
          = ∑ b ∈ (t.map f).toFinset,
              ((if f a = b then 1 else 0) + (t.filter (fun w => f w == b)).length) := by
        apply Finset.sum_congr rfl
        intro b _
        exact hfilter b
      rw [hsum, Finset.sum_add_distrib, ih]
      have hone : ∑ b ∈ (t.map f).toFinset, (if f a = b then 1 else 0) = 1 := by
        rw [Finset.sum_ite_eq (t.map f).toFinset (f a) (fun _ => 1)]
        rw [if_pos hmem]
      rw [hone]
      simp [Nat.add_comm]
    · rw [Finset.sum_insert hmem]
      have hzero : ((a :: t).filter (fun w => f w == (f a))).length
          = 1 + (t.filter (fun w => f w == f a)).length := by
        rw [hfilter (f a), if_pos rfl]
      rw [hzero]
      have htz : (t.filter (fun w => f w == f a)).length = 0 := by
        rw [List.length_eq_zero, List.filter_eq_nil_iff]
        intro w hw
        simp only [beq_iff_eq]
        intro hcon
        apply hmem
        rw [List.mem_toFinset, List.mem_map]
        exact ⟨w, hw, hcon⟩
      rw [htz]
      have hsum : ∑ b ∈ (t.map f).toFinset, ((a :: t).filter (fun w => f w == b)).length
          = ∑ b ∈ (t.map f).toFinset, (t.filter (fun w => f w == b)).length := by
        apply Finset.sum_congr rfl
        intro b hb
        rw [hfilter b, if_neg]
        · omega
        · intro hcon
          apply hmem
          rw [hcon]
          exact hb
      rw [hsum, ih]
      simp [Nat.add_comm]

theorem lowerWord_length (w : List Char) : (lowerWord w).length = w.length := by
  rw [lowerWord, List.length_map]

theorem lowerWord_no_dash (w : List Char) (h : '-' ∉ w) : '-' ∉ lowerWord w := by
  intro hcon
  rw [lowerWord, List.mem_map] at hcon
  obtain ⟨c, hc, hlc⟩ := hcon
  rw [toLower_eq_dash] at hlc
  subst hlc
  exact h hc

theorem generate_feedback_GAX (guess candidate : List Char) :
    ∀ s ∈ generate_wordle_feedback guess candidate, s = 'G' ∨ s = 'A' ∨ s = 'X' := by
  intro s hs
  exact pass2_mem_GAX _ _ _ s hs

theorem evaluate_entry_eq (guess : List Char) (cands : List (List Char)) :
    ∀ e ∈ evaluate_guess_candidates guess cands,
      ∃ w ∈ cands.map lowerWord,
        e = (w, feedback_core (lowerWord guess) w,
          criteria_count (lowerWord guess) (feedback_core (lowerWord guess) w)
            (cands.map lowerWord)) := by
  intro e he
  rw [evaluate_guess_candidates] at he
  simp only [List.mem_map] at he
  obtain ⟨w, hw, hew⟩ := he
  refine ⟨w, List.mem_map.mpr hw, ?_⟩
  have hlw : lowerWord w = w := by
    obtain ⟨w0, _, hw0⟩ := hw
    rw [← hw0, lowerWord_idem]
  have hlg : lowerWord (lowerWord guess) = lowerWord guess := lowerWord_idem guess
  have hfb : generate_wordle_feedback (lowerWord guess) w
      = feedback_core (lowerWord guess) w := by
    rw [generate_wordle_feedback, hlg, hlw]
  have happ : apply_updated_criteria (lowerWord guess)
        (generate_wordle_feedback (lowerWord guess) w) (cands.map lowerWord)
      = criteria_count (lowerWord guess) (feedback_core (lowerWord guess) w)
          (cands.map lowerWord) := by
    rw [apply_updated_criteria, hlg, hfb]
    rw [upperWord_GAX _ (by
      intro s hs
      exact pass2_mem_GAX _ _ _ s hs)]
    have hmaps : (cands.map lowerWord).map lowerWord = cands.map lowerWord := by
      rw [List.map_map]
      apply List.map_congr_left
      intro x _
      exact lowerWord_idem x
    rw [hmaps]
  rw [← hew, happ, hfb]

/-- C1: for every pair of 5-letter words, the feedback marks, for each letter,
exactly `min` of the letter's multiplicities as Hit or Present, and every other
occurrence of the letter as Miss. -/
theorem feedback_min_count_marks (guess answer : List Char)
    (h1 : guess.length = 5) (h2 : answer.length = 5) (c : Char) :
    markCount c (fun s => s == 'G' || s == 'A')
        ((lowerWord guess).zip (generate_wordle_feedback guess answer))
      = min ((lowerWord guess).count c) ((lowerWord answer).count c)
    ∧ markCount c (fun s => s == 'X')
        ((lowerWord guess).zip (generate_wordle_feedback guess answer))
      = (lowerWord guess).count c
        - min ((lowerWord guess).count c) ((lowerWord answer).count c)
    ∧ ∀ s ∈ generate_wordle_feedback guess answer, s = 'G' ∨ s = 'A' ∨ s = 'X' := by
  have hl : (lowerWord guess).length = (lowerWord answer).length := by
    rw [lowerWord_length, lowerWord_length, h1, h2]
  exact ⟨feedback_core_GA (lowerWord guess) (lowerWord answer) hl c,
    feedback_core_X (lowerWord guess) (lowerWord answer) hl c,
    generate_feedback_GAX guess answer⟩

/-- Witness for C1 at the doubled-letter guess "geese" against answer "crane". -/
theorem feedback_min_count_marks_witness :
    (['g','e','e','s','e'] : List Char).length = 5
    ∧ (['c','r','a','n','e'] : List Char).length = 5
    ∧ (markCount 'e' (fun s => s == 'G' || s == 'A')
          ((lowerWord ['g','e','e','s','e']).zip
            (generate_wordle_feedback ['g','e','e','s','e'] ['c','r','a','n','e']))
        = min ((lowerWord ['g','e','e','s','e']).count 'e')
            ((lowerWord ['c','r','a','n','e']).count 'e')
      ∧ markCount 'e' (fun s => s == 'X')
          ((lowerWord ['g','e','e','s','e']).zip
            (generate_wordle_feedback ['g','e','e','s','e'] ['c','r','a','n','e']))
        = (lowerWord ['g','e','e','s','e']).count 'e'
          - min ((lowerWord ['g','e','e','s','e']).count 'e')
              ((lowerWord ['c','r','a','n','e']).count 'e')
      ∧ ∀ s ∈ generate_wordle_feedback ['g','e','e','s','e'] ['c','r','a','n','e'],
          s = 'G' ∨ s = 'A' ∨ s = 'X') :=
  ⟨by decide, by decide,
    feedback_min_count_marks ['g','e','e','s','e'] ['c','r','a','n','e']
      (by decide) (by decide) 'e'⟩

/-- C2 counterexample: evaluating guess "aaxyz" against candidates
["aqqqq", "aaqqq"] reports remaining-count 2 for candidate "aqqqq", but the
bucket of candidates sharing its feedback pattern "GXXXX" has size 1. -/
theorem evaluate_guess_candidates_bucket_mismatch :
    evaluate_guess_candidates ['a','a','x','y','z']
        [['a','q','q','q','q'], ['a','a','q','q','q']]
      = [(['a','q','q','q','q'], ['G','X','X','X','X'], 2),
         (['a','a','q','q','q'], ['G','G','X','X','X'], 1)]
    ∧ ([['a','q','q','q','q'], ['a','a','q','q','q']].filter
        (fun x => generate_wordle_feedback ['a','a','x','y','z'] x
          == ['G','X','X','X','X'])).length = 1 := by
  decide

/-- C2 (amended): each reported remaining-count is an upper bound for the
candidate's own bucket, and the true bucket sizes over distinct realized
patterns sum to the candidate count. -/
theorem evaluate_guess_candidates_buckets (guess : List Char) (cands : List (List Char))
    (hg5 : guess.length = 5) (hc5 : ∀ w ∈ cands, w.length = 5) (hdash : '-' ∉ guess) :
    (∀ e ∈ evaluate_guess_candidates guess cands,
      ((cands.map lowerWord).filter
          (fun x => generate_wordle_feedback (lowerWord guess) x == e.2.1)).length ≤ e.2.2)
    ∧ ∑ b ∈ ((cands.map lowerWord).map
          (fun x => generate_wordle_feedback (lowerWord guess) x)).toFinset,
        ((cands.map lowerWord).filter
          (fun x => generate_wordle_feedback (lowerWord guess) x == b)).length
      = cands.length := by
  have hcs5 : ∀ x ∈ cands.map lowerWord, x.length = 5 := by
    intro x hx
    rw [List.mem_map] at hx
    obtain ⟨x0, hx0, hxx⟩ := hx
    rw [← hxx, lowerWord_length]
    exact hc5 x0 hx0
  have hg5b : (lowerWord guess).length = 5 := by rw [lowerWord_length, hg5]
  have hdashb : '-' ∉ lowerWord guess := lowerWord_no_dash guess hdash
  have hfbcs : ∀ x ∈ cands.map lowerWord,
      generate_wordle_feedback (lowerWord guess) x = feedback_core (lowerWord guess) x := by
    intro x hx
    rw [List.mem_map] at hx
    obtain ⟨x0, _, hxx⟩ := hx
    rw [generate_wordle_feedback, lowerWord_idem, ← hxx, lowerWord_idem]
  constructor
  · intro e he
    obtain ⟨w, hw, hew⟩ := evaluate_entry_eq guess cands e he
    subst hew
    have hb : ((cands.map lowerWord).filter
          (fun x => generate_wordle_feedback (lowerWord guess) x
            == feedback_core (lowerWord guess) w)).length
        = ((cands.map lowerWord).filter
          (fun x => feedback_core (lowerWord guess) x
            == feedback_core (lowerWord guess) w)).length := by
      congr 1
      apply List.filter_congr
      intro x hx
      rw [hfbcs x hx]
    simp only []
    rw [hb]
    exact bucket_le_criteria_count (lowerWord guess) w (cands.map lowerWord)
      hg5b hcs5 (hcs5 w hw) hdashb
  · have := filter_length_partition
      (fun x => generate_wordle_feedback (lowerWord guess) x) (cands.map lowerWord)
    rw [this, List.length_map]

/-- Witness for the amended C2 theorem at guess "crane" and candidates
["crane", "crone", "trace"]. -/
theorem evaluate_guess_candidates_buckets_witness :
    (['c','r','a','n','e'] : List Char).length = 5
    ∧ (∀ w ∈ [['c','r','a','n','e'], ['c','r','o','n','e'], ['t','r','a','c','e']],
        List.length w = 5)
    ∧ ('-' ∉ (['c','r','a','n','e'] : List Char))
    ∧ ((∀ e ∈ evaluate_guess_candidates ['c','r','a','n','e']
          [['c','r','a','n','e'], ['c','r','o','n','e'], ['t','r','a','c','e']],
        (([['c','r','a','n','e'], ['c','r','o','n','e'], ['t','r','a','c','e']].map
              lowerWord).filter
            (fun x => generate_wordle_feedback (lowerWord ['c','r','a','n','e']) x
              == e.2.1)).length ≤ e.2.2)
      ∧ ∑ b ∈ (([['c','r','a','n','e'], ['c','r','o','n','e'],
              ['t','r','a','c','e']].map lowerWord).map
            (fun x => generate_wordle_feedback (lowerWord ['c','r','a','n','e']) x)).toFinset,
          (([['c','r','a','n','e'], ['c','r','o','n','e'], ['t','r','a','c','e']].map
              lowerWord).filter
            (fun x => generate_wordle_feedback (lowerWord ['c','r','a','n','e']) x
              == b)).length
        = ([['c','r','a','n','e'], ['c','r','o','n','e'],
            ['t','r','a','c','e']] : List (List Char)).length) :=
  ⟨by decide, by decide, by decide,
    evaluate_guess_candidates_buckets ['c','r','a','n','e']
      [['c','r','a','n','e'], ['c','r','o','n','e'], ['t','r','a','c','e']]
      (by decide) (by decide) (by decide)⟩

theorem processPairs_proj : ∀ (l : List (Char × Char)) (i : Nat) (d : WordleData),
    processPairs i l d
      = ⟨foldE i l d.exclusions, foldKnown i l d.known_letters,
         foldU l d.unlocated_letters, foldN l d.letters_not_in_word⟩ := by
  intro l
  induction l with
  | nil => intro i d; rfl
  | cons p rest ih =>
    intro i d
    rw [processPairs, ih, foldE, foldKnown, foldU, foldN]
    rfl

theorem foldKnown_idem (l : List (Char × Char)) (i : Nat) (k : List Char)
    (hb : i + l.length ≤ k.length) :
    foldKnown i l (foldKnown i l k) = foldKnown i l k := by
  have hlen : (foldKnown i l k).length = k.length := foldKnown_length l i k hb
  have hlen2 : (foldKnown i l (foldKnown i l k)).length = k.length := by
    rw [foldKnown_length l i _ (by rw [hlen]; exact hb), hlen]
  apply List.ext_getElem (by rw [hlen2, hlen])
  intro j hj1 hj2
  have hjk : j < k.length := by rw [hlen2] at hj1; exact hj1
  have e1 : (foldKnown i l (foldKnown i l k))[j] =
      (foldKnown i l (foldKnown i l k)).getD j '-' := by
    rw [List.getD_eq_getElem _ _ hj1]
  have e2 : (foldKnown i l k)[j] = (foldKnown i l k).getD j '-' := by
    rw [List.getD_eq_getElem _ _ hj2]
  rw [e1, e2]
  have hval2 := foldKnown_getD l i (foldKnown i l k) j (by rw [hlen]; exact hb)
    (by rw [hlen]; exact hjk)
  have hval := foldKnown_getD l i k j hb hjk
  by_cases hwin : i ≤ j ∧ j < i + l.length
  · by_cases hG : (l.getD (j - i) ('-', '-')).2 = 'G'
    · rw [hval2, if_pos hwin, if_pos hG, hval, if_pos hwin, if_pos hG]
    · rw [hval2, if_pos hwin, if_neg hG]
  · rw [hval2, if_neg hwin]

theorem count_stepU (q : Char × Char) (c : Char) (u : List Char) :
    (stepU q.1 q.2 u).count c = countStep q c (u.count c) := by
  rw [stepU, countStep]
  by_cases hG : q.2 = 'G'
  · rw [if_pos hG]
    by_cases hqc : q.1 = c
    · have h1 : q.1 = c ∧ q.2 = 'G' := ⟨hqc, hG⟩
      rw [if_pos h1]
      subst hqc
      by_cases hmem : q.1 ∈ u
      · rw [if_pos hmem, List.count_eq_zero]
        intro hcon
        rw [List.mem_filter] at hcon
        have h2 := hcon.2
        simp at h2
      · rw [if_neg hmem, List.count_eq_zero]
        exact hmem
    · have hn1 : ¬(q.1 = c ∧ q.2 = 'G') := fun hcon => hqc hcon.1
      have hn2 : ¬(q.1 = c ∧ q.2 = 'A' ∧ u.count c = 0) := fun hcon => hqc hcon.1
      rw [if_neg hn1, if_neg hn2]
      by_cases hmem : q.1 ∈ u
      · rw [if_pos hmem]
        apply List.count_filter
        simp only [decide_eq_true_eq]
        intro hcon
        exact hqc hcon.symm
      · rw [if_neg hmem]
  · rw [if_neg hG]
    have hn1 : ¬(q.1 = c ∧ q.2 = 'G') := fun hcon => hG hcon.2
    rw [if_neg hn1]
    by_cases hA : q.2 = 'A' ∧ q.1 ∉ u
    · rw [if_pos hA]
      by_cases hqc : q.1 = c
      · subst hqc
        have hz : u.count q.1 = 0 := List.count_eq_zero.mpr hA.2
        have h2 : q.1 = q.1 ∧ q.2 = 'A' ∧ u.count q.1 = 0 := ⟨rfl, hA.1, hz⟩
        rw [if_pos h2, List.count_append, hz]
        simp
      · have hn2 : ¬(q.1 = c ∧ q.2 = 'A' ∧ u.count c = 0) := fun hcon => hqc hcon.1
        rw [if_neg hn2, List.count_append]
        have hz : ([q.1] : List Char).count c = 0 := by
          rw [List.count_eq_zero]
          simp only [List.mem_singleton]
          intro hcon
          exact hqc hcon.symm
        rw [hz]
        omega
    · rw [if_neg hA]
      by_cases hqc : q.1 = c
      · subst hqc
        by_cases hA2 : q.2 = 'A'
        · have hmem : q.1 ∈ u := by
            by_contra hcon
            exact hA ⟨hA2, hcon⟩
          have hnz : ¬(u.count q.1 = 0) := by
            rw [List.count_eq_zero]
            simp [hmem]
          have hn2 : ¬(q.1 = q.1 ∧ q.2 = 'A' ∧ u.count q.1 = 0) := fun hcon => hnz hcon.2.2
          rw [if_neg hn2]
        · have hn2 : ¬(q.1 = q.1 ∧ q.2 = 'A' ∧ u.count q.1 = 0) := fun hcon => hA2 hcon.2.1
          rw [if_neg hn2]
      · have hn2 : ¬(q.1 = c ∧ q.2 = 'A' ∧ u.count c = 0) := fun hcon => hqc hcon.1
        rw [if_neg hn2]

theorem foldU_count : ∀ (l : List (Char × Char)) (u : List Char) (c : Char),
    (foldU l u).count c = l.foldl (fun n q => countStep q c n) (u.count c) := by
  intro l
  induction l with
  | nil => intro u c; rfl
  | cons q rest ih =>
    intro u c
    rw [foldU, List.foldl_cons, ih, count_stepU]

theorem countStep_cfApply (q : Char × Char) (c : Char) (a : CntFun) (n : Nat) :
    countStep q c (cfApply a n) = cfApply (cfStep q c a) n := by
  by_cases hqc : q.1 = c <;>
    by_cases hG : q.2 = 'G' <;>
      by_cases hA : q.2 = 'A' <;>
        cases a <;>
          by_cases hn : n = 0 <;>
            simp_all [countStep, cfStep, cfApply]

theorem foldl_countStep_cf : ∀ (l : List (Char × Char)) (c : Char) (a : CntFun) (n : Nat),
    l.foldl (fun m q => countStep q c m) (cfApply a n)
      = cfApply (l.foldl (fun b q => cfStep q c b) a) n := by
  intro l
  induction l with
  | nil => intro c a n; rfl
  | cons q rest ih =>
    intro c a n
    rw [List.foldl_cons, List.foldl_cons, countStep_cfApply, ih]

theorem cfApply_idem (a : CntFun) (n : Nat) : cfApply a (cfApply a n) = cfApply a n := by
  cases a with
  | ident => rfl
  | zero => rfl
  | one => rfl
  | max1 => by_cases hn : n = 0 <;> simp [cfApply, hn]

theorem foldU_count_idem (l : List (Char × Char)) (u : List Char) (c : Char) :
    (foldU l (foldU l u)).count c = (foldU l u).count c := by
  have hF : ∀ m : Nat, l.foldl (fun n q => countStep q c n) m
      = cfApply (l.foldl (fun b q => cfStep q c b) CntFun.ident) m := by
    intro m
    have h := foldl_countStep_cf l c CntFun.ident m
    rw [show cfApply CntFun.ident m = m from rfl] at h
    exact h
  rw [foldU_count, foldU_count]
  simp only [hF]
  exact cfApply_idem _ _

theorem foldN_mem : ∀ (l : List (Char × Char)) (n : List Char) (x : Char),
    x ∈ foldN l n ↔ x ∈ n ∨ ∃ q ∈ l, q.1 = x ∧ q.2 = 'X' := by
  intro l
  induction l with
  | nil => intro n x; simp [foldN]
  | cons q rest ih =>
    intro n x
    rw [foldN, ih, stepN]
    by_cases hX : q.2 = 'X' ∧ q.1 ∉ n
    · rw [if_pos hX]
      constructor
      · rintro (h | ⟨q2, hq2, hq2x, hq2X⟩)
        · rcases List.mem_append.mp h with h2 | h2
          · exact Or.inl h2
          · rw [List.mem_singleton] at h2
            subst h2
            exact Or.inr ⟨q, List.mem_cons_self q rest, rfl, hX.1⟩
        · exact Or.inr ⟨q2, List.mem_cons_of_mem q hq2, hq2x, hq2X⟩
      · rintro (h | ⟨q2, hq2, hq2x, hq2X⟩)
        · exact Or.inl (List.mem_append.mpr (Or.inl h))
        · rcases List.mem_cons.mp hq2 with rfl | hq3
          · subst hq2x
            exact Or.inl (List.mem_append.mpr (Or.inr (by simp)))
          · exact Or.inr ⟨q2, hq3, hq2x, hq2X⟩
    · rw [if_neg hX]
      constructor
      · rintro (h | ⟨q2, hq2, hq2x, hq2X⟩)
        · exact Or.inl h
        · exact Or.inr ⟨q2, List.mem_cons_of_mem q hq2, hq2x, hq2X⟩
      · rintro (h | ⟨q2, hq2, hq2x, hq2X⟩)
        · exact Or.inl h
        · rcases List.mem_cons.mp hq2 with rfl | hq3
          · subst hq2x
            by_cases hmem : q2.1 ∈ n
            · exact Or.inl hmem
            · exact absurd ⟨hq2X, hmem⟩ hX
          · exact Or.inr ⟨q2, hq3, hq2x, hq2X⟩

theorem foldN_append : ∀ (l : List (Char × Char)) (n : List Char),
    ∃ t, foldN l n = n ++ t ∧ ∀ x ∈ t, (∃ q ∈ l, q.1 = x ∧ q.2 = 'X') ∧ x ∉ n := by
  intro l
  induction l with
  | nil => intro n; exact ⟨[], by simp [foldN]⟩
  | cons q rest ih =>
    intro n
    rw [foldN, stepN]
    by_cases hX : q.2 = 'X' ∧ q.1 ∉ n
    · rw [if_pos hX]
      obtain ⟨t, ht1, ht2⟩ := ih (n ++ [q.1])
      refine ⟨q.1 :: t, ?_, ?_⟩
      · rw [ht1, List.append_assoc]
        rfl
      · intro x hx
        rcases List.mem_cons.mp hx with rfl | hx2
        · exact ⟨⟨q, List.mem_cons_self q rest, rfl, hX.1⟩, hX.2⟩
        · have := ht2 x hx2
          refine ⟨?_, ?_⟩
          · obtain ⟨⟨q2, hq2, hq2x, hq2X⟩, _⟩ := this
            exact ⟨q2, List.mem_cons_of_mem q hq2, hq2x, hq2X⟩
          · intro hcon
            exact this.2 (List.mem_append.mpr (Or.inl hcon))
    · rw [if_neg hX]
      obtain ⟨t, ht1, ht2⟩ := ih n
      refine ⟨t, ht1, ?_⟩
      intro x hx
      have := ht2 x hx
      exact ⟨⟨this.1.choose, List.mem_cons_of_mem q this.1.choose_spec.1,
        this.1.choose_spec.2.1, this.1.choose_spec.2.2⟩, this.2⟩

theorem hasKey_lookup (k : String) (e : List (String × List Char)) :
    hasKey k e ↔ (e.lookup k).isSome := by
  induction e with
  | nil => simp [hasKey, List.lookup]
  | cons kv rest ih =>
    rw [hasKey]
    by_cases hk : kv.1 = k
    · simp only [List.lookup]
      rw [show (k == kv.1) = true from by simp [hk]]
      simp only [Option.isSome_some, iff_true]
      exact ⟨kv, List.mem_cons_self kv rest, hk⟩
    · simp only [List.lookup]
      rw [show (k == kv.1) = false from by simp; intro hcon; exact hk hcon.symm]
      rw [← ih, hasKey]
      constructor
      · rintro ⟨kv2, hkv2, hkv2k⟩
        rcases List.mem_cons.mp hkv2 with rfl | h2
        · exact absurd hkv2k hk
        · exact ⟨kv2, h2, hkv2k⟩
      · rintro ⟨kv2, hkv2, hkv2k⟩
        exact ⟨kv2, List.mem_cons_of_mem kv hkv2, hkv2k⟩

theorem stepE_hasKey_mono (i : Nat) (c s : Char) (k : String) (e : List (String × List Char))
    (h : hasKey k e) : hasKey k (stepE i c s e) := by
  rw [stepE]
  by_cases hs : s = 'A' ∨ s = 'X'
  · rw [if_pos hs]
    obtain ⟨kv, hkv, hkvk⟩ := h
    rw [ensureKey]
    by_cases hek : ((e.lookup (exclusionKey i)).isSome : Prop)
    · rw [if_pos hek]
      rw [appendValIfAbsent]
      refine ⟨if kv.1 = exclusionKey i then (if c ∈ kv.2 then kv else (kv.1, kv.2 ++ [c])) else kv,
        List.mem_map_of_mem _ hkv, ?_⟩
      by_cases h1 : kv.1 = exclusionKey i
      · rw [if_pos h1]
        by_cases h2 : c ∈ kv.2
        · rw [if_pos h2]
          exact hkvk
        · rw [if_neg h2]
          exact hkvk
      · rw [if_neg h1]
        exact hkvk
    · rw [if_neg hek]
      rw [appendValIfAbsent]
      refine ⟨if kv.1 = exclusionKey i then (if c ∈ kv.2 then kv else (kv.1, kv.2 ++ [c])) else kv,
        ?_, ?_⟩
      · apply List.mem_map_of_mem
        exact List.mem_append.mpr (Or.inl hkv)
      · by_cases h1 : kv.1 = exclusionKey i
        · rw [if_pos h1]
          by_cases h2 : c ∈ kv.2
          · rw [if_pos h2]
            exact hkvk
          · rw [if_neg h2]
            exact hkvk
        · rw [if_neg h1]
          exact hkvk
  · rw [if_neg hs]
    exact h

theorem stepE_valAll_mono (i : Nat) (c s : Char) (k : String) (c0 : Char)
    (e : List (String × List Char)) (hkey : hasKey k e) (h : valAll k c0 e) :
    valAll k c0 (stepE i c s e) := by
  rw [stepE]
  by_cases hs : s = 'A' ∨ s = 'X'
  · rw [if_pos hs]
    intro kv hkv hkvk
    rw [appendValIfAbsent, List.mem_map] at hkv
    obtain ⟨kv0, hkv0, hkv0e⟩ := hkv
    have hkv0mem : kv0 ∈ ensureKey (exclusionKey i) e := hkv0
    have hkv0e2 : kv0 ∈ e ∨ kv0 = (exclusionKey i, []) := by
      rw [ensureKey] at hkv0mem
      by_cases hek : ((e.lookup (exclusionKey i)).isSome : Prop)
      · rw [if_pos hek] at hkv0mem
        exact Or.inl hkv0mem
      · rw [if_neg hek] at hkv0mem
        rcases List.mem_append.mp hkv0mem with h2 | h2
        · exact Or.inl h2
        · rw [List.mem_singleton] at h2
          exact Or.inr h2
    rcases hkv0e2 with hmem | heq
    · -- an original entry, possibly with c appended
      by_cases h1 : kv0.1 = exclusionKey i
      · rw [if_pos h1] at hkv0e
        by_cases h2 : c ∈ kv0.2
        · rw [if_pos h2] at hkv0e
          subst hkv0e
          exact h kv0 hmem hkvk
        · rw [if_neg h2] at hkv0e
          subst hkv0e
          simp only at hkvk
          have := h kv0 hmem hkvk
          simp only
          exact List.mem_append.mpr (Or.inl this)
      · rw [if_neg h1] at hkv0e
        subst hkv0e
        exact h kv0 hmem hkvk
    · -- the freshly created empty entry: its key is absent from e, but k has a key in e
      exfalso
      subst heq
      rw [ensureKey] at hkv0mem
      by_cases hek : ((e.lookup (exclusionKey i)).isSome : Prop)
      · rw [if_pos hek] at hkv0mem
        -- then (exclusionKey i, []) ∈ e itself: fine, handled as original entry
        by_cases h1 : ((exclusionKey i, []) : String × List Char).1 = exclusionKey i
        · rw [if_pos h1] at hkv0e
          by_cases h2 : c ∈ ((exclusionKey i, []) : String × List Char).2
          · simp at h2
          · rw [if_neg h2] at hkv0e
            subst hkv0e
            simp only at hkvk
            have := h _ hkv0mem hkvk
            simp at this
        · simp at h1
      · -- key was freshly added at the end; then kv = (key, []) or (key, [c]); if kv.1 = k then
        -- k = exclusionKey i had no entry in e, contradicting hkey
        rw [hasKey_lookup] at hkey
        by_cases h1 : ((exclusionKey i, []) : String × List Char).1 = exclusionKey i
        · rw [if_pos h1] at hkv0e
          by_cases h2 : c ∈ ((exclusionKey i, []) : String × List Char).2
          · simp at h2
          · rw [if_neg h2] at hkv0e
            subst hkv0e
            simp only at hkvk
            rw [hkvk] at hek
            exact hek hkey
        · simp at h1
  · rw [if_neg hs]
    exact h

theorem stepE_establishes (i : Nat) (c s : Char) (e : List (String × List Char))
    (hs : s = 'A' ∨ s = 'X') :
    hasKey (exclusionKey i) (stepE i c s e) ∧ valAll (exclusionKey i) c (stepE i c s e) := by
  rw [stepE, if_pos hs]
  have hkey : hasKey (exclusionKey i) (ensureKey (exclusionKey i) e) := by
    rw [ensureKey]
    by_cases hek : ((e.lookup (exclusionKey i)).isSome : Prop)
    · rw [if_pos hek]
      rw [hasKey_lookup]
      exact hek
    · rw [if_neg hek]
      exact ⟨(exclusionKey i, []), List.mem_append.mpr (Or.inr (by simp)), rfl⟩
  constructor
  · obtain ⟨kv, hkv, hkvk⟩ := hkey
    rw [appendValIfAbsent]
    refine ⟨if kv.1 = exclusionKey i then (if c ∈ kv.2 then kv else (kv.1, kv.2 ++ [c])) else kv,
      List.mem_map_of_mem _ hkv, ?_⟩
    rw [if_pos hkvk]
    by_cases h2 : c ∈ kv.2
    · rw [if_pos h2]
      exact hkvk
    · rw [if_neg h2]
      exact hkvk
  · intro kv hkv hkvk
    rw [appendValIfAbsent, List.mem_map] at hkv
    obtain ⟨kv0, hkv0, hkv0e⟩ := hkv
    by_cases h1 : kv0.1 = exclusionKey i
    · rw [if_pos h1] at hkv0e
      by_cases h2 : c ∈ kv0.2
      · rw [if_pos h2] at hkv0e
        subst hkv0e
        exact h2
      · rw [if_neg h2] at hkv0e
        subst hkv0e
        simp
    · rw [if_neg h1] at hkv0e
      subst hkv0e
      exact absurd hkvk h1

theorem foldE_pres (l : List (Char × Char)) : ∀ (i : Nat) (e : List (String × List Char))
    (k : String) (c0 : Char), hasKey k e → valAll k c0 e →
    hasKey k (foldE i l e) ∧ valAll k c0 (foldE i l e) := by
  induction l with
  | nil => intro i e k c0 h1 h2; exact ⟨h1, h2⟩
  | cons q rest ih =>
    intro i e k c0 h1 h2
    rw [foldE]
    exact ih (i + 1) _ k c0 (stepE_hasKey_mono i q.1 q.2 k e h1)
      (stepE_valAll_mono i q.1 q.2 k c0 e h1 h2)

theorem foldE_establish (l : List (Char × Char)) : ∀ (i : Nat) (e : List (String × List Char))
    (j : Nat) (hj : j < l.length), ((l[j]).2 = 'A' ∨ (l[j]).2 = 'X') →
    hasKey (exclusionKey (i + j)) (foldE i l e)
      ∧ valAll (exclusionKey (i + j)) ((l[j]).1) (foldE i l e) := by
  induction l with
  | nil => intro i e j hj; simp at hj
  | cons q rest ih =>
    intro i e j hj hAX
    rw [foldE]
    cases j with
    | zero =>
      simp only [List.getElem_cons_zero] at hAX ⊢
      have hest := stepE_establishes i q.1 q.2 e hAX
      have := foldE_pres rest (i + 1) (stepE i q.1 q.2 e) (exclusionKey i) q.1 hest.1 hest.2
      rw [Nat.add_zero]
      exact this
    | succ m =>
      simp only [List.getElem_cons_succ] at hAX ⊢
      have hm : m < rest.length := by simp at hj; omega
      have := ih (i + 1) (stepE i q.1 q.2 e) m hm hAX
      rw [show i + 1 + m = i + (m + 1) from by omega] at this
      exact this

theorem stepE_noop (i : Nat) (c s : Char) (e : List (String × List Char))
    (h1 : hasKey (exclusionKey i) e) (h2 : valAll (exclusionKey i) c e) :
    stepE i c s e = e := by
  rw [stepE]
  by_cases hs : s = 'A' ∨ s = 'X'
  · rw [if_pos hs]
    have hek : ensureKey (exclusionKey i) e = e := by
      rw [ensureKey, if_pos]
      rw [← hasKey_lookup]
      exact h1
    rw [hek, appendValIfAbsent]
    have : ∀ kv ∈ e, (if kv.1 = exclusionKey i
        then (if c ∈ kv.2 then kv else (kv.1, kv.2 ++ [c])) else kv) = kv := by
      intro kv hkv
      by_cases hk : kv.1 = exclusionKey i
      · rw [if_pos hk, if_pos (h2 kv hkv hk)]
      · rw [if_neg hk]
    calc e.map _ = e.map id := List.map_congr_left this
      _ = e := List.map_id e
  · rw [if_neg hs]

theorem foldE_fix (l : List (Char × Char)) : ∀ (i : Nat) (e : List (String × List Char)),
    (∀ (j : Nat) (hj : j < l.length), ((l[j]).2 = 'A' ∨ (l[j]).2 = 'X') →
      hasKey (exclusionKey (i + j)) e ∧ valAll (exclusionKey (i + j)) ((l[j]).1) e) →
    foldE i l e = e := by
  induction l with
  | nil => intro i e _; rfl
  | cons q rest ih =>
    intro i e hprops
    rw [foldE]
    have hstep : stepE i q.1 q.2 e = e := by
      by_cases hAX : q.2 = 'A' ∨ q.2 = 'X'
      · have := hprops 0 (by simp) (by simpa using hAX)
        simp only [List.getElem_cons_zero, Nat.add_zero] at this
        exact stepE_noop i q.1 q.2 e this.1 this.2
      · rw [stepE, if_neg hAX]
    rw [hstep]
    apply ih (i + 1) e
    intro j hj hAX
    have := hprops (j + 1) (by simp; omega) (by simpa using hAX)
    simp only [List.getElem_cons_succ] at this
    rw [show i + (j + 1) = i + 1 + j from by omega] at this
    exact this

theorem foldE_idem (l : List (Char × Char)) (i : Nat) (e : List (String × List Char)) :
    foldE i l (foldE i l e) = foldE i l e := by
  apply foldE_fix
  intro j hj hAX
  exact foldE_establish l i e j hj hAX

theorem foldU_mem_idem (l : List (Char × Char)) (u : List Char) (c : Char) :
    c ∈ foldU l (foldU l u) ↔ c ∈ foldU l u := by
  rw [← List.count_pos_iff, ← List.count_pos_iff, foldU_count_idem]

theorem update_core_fields (w p : List Char) (d : WordleData) :
    (update_core w p d).exclusions = foldE 0 (w.zip p) d.exclusions
    ∧ (update_core w p d).known_letters = foldKnown 0 (w.zip p) d.known_letters
    ∧ (update_core w p d).unlocated_letters = foldU (w.zip p) d.unlocated_letters
    ∧ (update_core w p d).letters_not_in_word
        = (foldN (w.zip p) d.letters_not_in_word).filter
            (fun c => decide (c ∉ removeListOf (processPairs 0 (w.zip p) d))) := by
  refine ⟨?_, ?_, ?_, ?_⟩
  · show (processPairs 0 (w.zip p) d).exclusions = _
    rw [processPairs_proj]
  · show (processPairs 0 (w.zip p) d).known_letters = _
    rw [processPairs_proj]
  · show (processPairs 0 (w.zip p) d).unlocated_letters = _
    rw [processPairs_proj]
  · show (processPairs 0 (w.zip p) d).letters_not_in_word.filter _ = _
    rw [processPairs_proj]

theorem update_core_idem (w p : List Char) (d : WordleData)
    (hk : d.known_letters.length = 5) (hw : w.length = 5) (hp : p.length = 5) :
    (update_core w p (update_core w p d)).exclusions = (update_core w p d).exclusions
    ∧ (update_core w p (update_core w p d)).known_letters
        = (update_core w p d).known_letters
    ∧ (update_core w p (update_core w p d)).letters_not_in_word
        = (update_core w p d).letters_not_in_word
    ∧ ∀ c, (update_core w p (update_core w p d)).unlocated_letters.count c
        = (update_core w p d).unlocated_letters.count c := by
  have hzl : (w.zip p).length = 5 := by
    rw [List.length_zip, hw, hp]
    simp
  have hb : 0 + (w.zip p).length ≤ d.known_letters.length := by omega
  obtain ⟨hE1, hK1, hU1, hN1⟩ := update_core_fields w p d
  obtain ⟨hE2, hK2, hU2, hN2⟩ := update_core_fields w p (update_core w p d)
  have hkidem := foldKnown_idem (w.zip p) 0 d.known_letters hb
  -- removeListOf after processing run 2 has the same members as after run 1
  have hrm : ∀ c, c ∈ removeListOf (processPairs 0 (w.zip p) (update_core w p d))
      ↔ c ∈ removeListOf (processPairs 0 (w.zip p) d) := by
    intro c
    rw [processPairs_proj, processPairs_proj, removeListOf, removeListOf]
    simp only [hK1, hU1]
    rw [List.mem_append, List.mem_append, hkidem]
    constructor
    · rintro (hc | hc)
      · exact Or.inl hc
      · exact Or.inr ((foldU_mem_idem (w.zip p) d.unlocated_letters c).mp hc)
    · rintro (hc | hc)
      · exact Or.inl hc
      · exact Or.inr ((foldU_mem_idem (w.zip p) d.unlocated_letters c).mpr hc)
  refine ⟨?_, ?_, ?_, ?_⟩
  · rw [hE2, hE1, foldE_idem]
  · rw [hK2, hK1, hkidem]
  · rw [hN2]
    obtain ⟨t, ht1, ht2⟩ := foldN_append (w.zip p) (update_core w p d).letters_not_in_word
    rw [ht1, List.filter_append]
    have hpart1 : ((update_core w p d).letters_not_in_word).filter
        (fun c => decide (c ∉ removeListOf (processPairs 0 (w.zip p) (update_core w p d))))
        = (update_core w p d).letters_not_in_word := by
      rw [List.filter_eq_self]
      intro c hc
      rw [decide_eq_true_eq, hrm c]
      rw [hN1, List.mem_filter, decide_eq_true_eq] at hc
      exact hc.2
    have hpart2 : t.filter
        (fun c => decide (c ∉ removeListOf (processPairs 0 (w.zip p) (update_core w p d)))) = [] := by
      rw [List.filter_eq_nil_iff]
      intro c hc
      have hprops := ht2 c hc
      rw [decide_eq_true_eq]
      simp only [not_not]
      rw [hrm c]
      by_contra hcon
      have hcmem : c ∈ foldN (w.zip p) d.letters_not_in_word := by
        rw [foldN_mem]
        right
        exact hprops.1
      apply hprops.2
      rw [hN1, List.mem_filter]
      exact ⟨hcmem, by rw [decide_eq_true_eq]; exact hcon⟩
    rw [hpart1, hpart2, List.append_nil]
  · intro c
    rw [hU2, hU1, foldU_count_idem]

theorem writebackEntry_fst (d : WordleData) (kv : String × JVal) :
    (writebackEntry d kv).1 = kv.1 := by
  rw [writebackEntry]
  by_cases c1 : kv.1 = "exclusions"
  · rw [if_pos c1]
  · rw [if_neg c1]
    by_cases c2 : kv.1 = "known_letters"
    · rw [if_pos c2]
    · rw [if_neg c2]
      by_cases c3 : kv.1 = "unlocated_letters_in_word"
      · rw [if_pos c3]
      · rw [if_neg c3]
        by_cases c4 : kv.1 = "letters_not_in_word"
        · rw [if_pos c4]
        · rw [if_neg c4]

theorem writebackEntry_other (d : WordleData) (kv : String × JVal)
    (h1 : ¬(kv.1 = "exclusions")) (h2 : ¬(kv.1 = "known_letters"))
    (h3 : ¬(kv.1 = "unlocated_letters_in_word")) (h4 : ¬(kv.1 = "letters_not_in_word")) :
    writebackEntry d kv = kv := by
  rw [writebackEntry, if_neg h1, if_neg h2, if_neg h3, if_neg h4]

theorem lookup_writeback (doc : List (String × JVal)) (d : WordleData) (k : String)
    (h1 : ¬(k = "exclusions")) (h2 : ¬(k = "known_letters"))
    (h3 : ¬(k = "unlocated_letters_in_word")) (h4 : ¬(k = "letters_not_in_word")) :
    (writeback doc d).lookup k = doc.lookup k := by
  induction doc with
  | nil => rfl
  | cons kv rest ih =>
    rw [writeback, List.map_cons, List.lookup, List.lookup]
    by_cases hk : k = kv.1
    · rw [show (k == (writebackEntry d kv).1) = true from by
        rw [writebackEntry_fst]; simp [hk]]
      rw [show (k == kv.1) = true from by simp [hk]]
      have heq : writebackEntry d kv = kv := by
        apply writebackEntry_other
        · rw [← hk]; exact h1
        · rw [← hk]; exact h2
        · rw [← hk]; exact h3
        · rw [← hk]; exact h4
      rw [heq]
    · rw [show (k == (writebackEntry d kv).1) = false from by
        rw [writebackEntry_fst]; simp; intro hcon; exact hk hcon]
      rw [show (k == kv.1) = false from by simp; intro hcon; exact hk hcon]
      exact ih

theorem writeback_keys (doc : List (String × JVal)) (d : WordleData) :
    (writeback doc d).map Prod.fst = doc.map Prod.fst := by
  rw [writeback, List.map_map]
  apply List.map_congr_left
  intro kv _
  exact writebackEntry_fst d kv

theorem getStr_writeback_known (doc : List (String × JVal)) (d : WordleData)
    (h : (doc.lookup "known_letters").isSome) :
    getStrKey (writeback doc d) "known_letters" = some d.known_letters := by
  induction doc with
  | nil => simp [List.lookup] at h
  | cons kv rest ih =>
    rw [writeback, List.map_cons, getStrKey]
    by_cases hk1 : kv.1 = "known_letters"
    · have hentry : writebackEntry d kv = (kv.1, JVal.str d.known_letters) := by
        rw [writebackEntry, if_neg (by rw [hk1]; decide), if_pos hk1]
      rw [hentry, List.lookup]
      rw [show ("known_letters" == (kv.1, JVal.str d.known_letters).1) = true from by
        simp [hk1]]
    · rw [List.lookup]
      rw [show ("known_letters" == (writebackEntry d kv).1) = false from by
        rw [writebackEntry_fst]; simp; intro hcon; exact hk1 hcon.symm]
      rw [List.lookup] at h
      rw [show ("known_letters" == kv.1) = false from by
        simp; intro hcon; exact hk1 hcon.symm] at h
      have := ih h
      rw [getStrKey] at this
      exact this

theorem getStr_writeback_unlocated (doc : List (String × JVal)) (d : WordleData)
    (h : (doc.lookup "unlocated_letters_in_word").isSome) :
    getStrKey (writeback doc d) "unlocated_letters_in_word" = some d.unlocated_letters := by
  induction doc with
  | nil => simp [List.lookup] at h
  | cons kv rest ih =>
    rw [writeback, List.map_cons, getStrKey]
    by_cases hk1 : kv.1 = "unlocated_letters_in_word"
    · have hentry : writebackEntry d kv = (kv.1, JVal.str d.unlocated_letters) := by
        rw [writebackEntry, if_neg (by rw [hk1]; decide), if_neg (by rw [hk1]; decide),
          if_pos hk1]
      rw [hentry, List.lookup]
      rw [show ("unlocated_letters_in_word" == (kv.1, JVal.str d.unlocated_letters).1)
          = true from by simp [hk1]]
    · rw [List.lookup]
      rw [show ("unlocated_letters_in_word" == (writebackEntry d kv).1) = false from by
        rw [writebackEntry_fst]; simp; intro hcon; exact hk1 hcon.symm]
      rw [List.lookup] at h
      rw [show ("unlocated_letters_in_word" == kv.1) = false from by
        simp; intro hcon; exact hk1 hcon.symm] at h
      have := ih h
      rw [getStrKey] at this
      exact this

theorem getStr_writeback_notin (doc : List (String × JVal)) (d : WordleData)
    (h : (doc.lookup "letters_not_in_word").isSome) :
    getStrKey (writeback doc d) "letters_not_in_word" = some d.letters_not_in_word := by
  induction doc with
  | nil => simp [List.lookup] at h
  | cons kv rest ih =>
    rw [writeback, List.map_cons, getStrKey]
    by_cases hk1 : kv.1 = "letters_not_in_word"
    · have hentry : writebackEntry d kv = (kv.1, JVal.str d.letters_not_in_word) := by
        rw [writebackEntry, if_neg (by rw [hk1]; decide), if_neg (by rw [hk1]; decide),
          if_neg (by rw [hk1]; decide), if_pos hk1]
      rw [hentry, List.lookup]
      rw [show ("letters_not_in_word" == (kv.1, JVal.str d.letters_not_in_word).1)
          = true from by simp [hk1]]
    · rw [List.lookup]
      rw [show ("letters_not_in_word" == (writebackEntry d kv).1) = false from by
        rw [writebackEntry_fst]; simp; intro hcon; exact hk1 hcon.symm]
      rw [List.lookup] at h
      rw [show ("letters_not_in_word" == kv.1) = false from by
        simp; intro hcon; exact hk1 hcon.symm] at h
      have := ih h
      rw [getStrKey] at this
      exact this

theorem objFields_roundtrip (l : List (String × List Char)) :
    objFields (l.map (fun ex => (ex.1, JVal.str ex.2))) = some l := by
  induction l with
  | nil => rfl
  | cons ex rest ih =>
    rw [List.map_cons]
    rw [show objFields ((ex.1, JVal.str ex.2) :: rest.map (fun e2 => (e2.1, JVal.str e2.2)))
      = (objFields (rest.map (fun e2 => (e2.1, JVal.str e2.2)))).map
          (fun r => (ex.1, ex.2) :: r) from rfl]
    rw [ih]
    rfl

theorem getExcl_writeback (doc : List (String × JVal)) (d : WordleData)
    (h : (doc.lookup "exclusions").isSome) :
    getExclKey (writeback doc d) = some d.exclusions := by
  induction doc with
  | nil => simp [List.lookup] at h
  | cons kv rest ih =>
    rw [writeback, List.map_cons, getExclKey]
    by_cases hk1 : kv.1 = "exclusions"
    · have hentry : writebackEntry d kv
          = (kv.1, JVal.obj (d.exclusions.map (fun ex => (ex.1, JVal.str ex.2)))) := by
        rw [writebackEntry, if_pos hk1]
      rw [hentry, List.lookup]
      rw [show ("exclusions"
          == (kv.1, JVal.obj (d.exclusions.map (fun ex => (ex.1, JVal.str ex.2)))).1)
          = true from by simp [hk1]]
      exact objFields_roundtrip d.exclusions
    · rw [List.lookup]
      rw [show ("exclusions" == (writebackEntry d kv).1) = false from by
        rw [writebackEntry_fst]; simp; intro hcon; exact hk1 hcon.symm]
      rw [List.lookup] at h
      rw [show ("exclusions" == kv.1) = false from by
        simp; intro hcon; exact hk1 hcon.symm] at h
      have := ih h
      rw [getExclKey] at this
      exact this

theorem getStrKey_lookup_isSome (doc : List (String × JVal)) (k : String)
    (h : (getStrKey doc k).isSome) : (doc.lookup k).isSome := by
  rw [getStrKey] at h
  cases hl : doc.lookup k with
  | none => rw [hl] at h; simp at h
  | some v => simp

theorem getExclKey_lookup_isSome (doc : List (String × JVal))
    (h : (getExclKey doc).isSome) : (doc.lookup "exclusions").isSome := by
  rw [getExclKey] at h
  cases hl : doc.lookup "exclusions" with
  | none => rw [hl] at h; simp at h
  | some v => simp

theorem update_wordle_json_some (doc : List (String × JVal)) (w p : List Char)
    (e : List (String × List Char)) (k u n : List Char)
    (he : getExclKey doc = some e) (hk : getStrKey doc "known_letters" = some k)
    (hu : getStrKey doc "unlocated_letters_in_word" = some u)
    (hn : getStrKey doc "letters_not_in_word" = some n) :
    update_wordle_json doc w p = some (writeback doc (update_core w p ⟨e, k, u, n⟩)) := by
  rw [update_wordle_json, he, hk, hu, hn]

theorem wfDoc_fields (doc : List (String × JVal)) (hwf : wfDoc doc) :
    ∃ e k u n, getExclKey doc = some e ∧ getStrKey doc "known_letters" = some k
      ∧ getStrKey doc "unlocated_letters_in_word" = some u
      ∧ getStrKey doc "letters_not_in_word" = some n := by
  obtain ⟨h1, h2, h3, h4⟩ := hwf
  rw [Option.isSome_iff_exists] at h1 h2 h3 h4
  obtain ⟨e, he⟩ := h1
  obtain ⟨k, hk⟩ := h2
  obtain ⟨u, hu⟩ := h3
  obtain ⟨n, hn⟩ := h4
  exact ⟨e, k, u, n, he, hk, hu, hn⟩

/-- C10: update_wordle_json rewrites only the four constraint fields; every other
key of the stored document is present and unchanged in the written output. -/
theorem update_wordle_json_frame (doc : List (String × JVal)) (w p : List Char)
    (hwf : wfDoc doc) :
    ∃ d', update_wordle_json doc w p = some d'
      ∧ (∀ k0 : String, ¬(k0 = "exclusions") → ¬(k0 = "known_letters")
          → ¬(k0 = "unlocated_letters_in_word") → ¬(k0 = "letters_not_in_word")
          → d'.lookup k0 = doc.lookup k0)
      ∧ d'.map Prod.fst = doc.map Prod.fst := by
  obtain ⟨e, k, u, n, he, hk, hu, hn⟩ := wfDoc_fields doc hwf
  refine ⟨writeback doc (update_core w p ⟨e, k, u, n⟩),
    update_wordle_json_some doc w p e k u n he hk hu hn, ?_, ?_⟩
  · intro k0 h1 h2 h3 h4
    exact lookup_writeback doc _ k0 h1 h2 h3 h4
  · exact writeback_keys doc _

/-- C8 counterexample: a 2-letter word with a 5-symbol pattern is not rejected:
the update succeeds and known_letters is partially overwritten; a pattern
containing the invalid symbol 'Q' is not rejected either. -/
theorem update_wordle_json_no_validation :
    (update_wordle_json defaultWordleDoc ['a', 'b'] ['G', 'G', 'G', 'G', 'G']).bind
        (fun d => getStrKey d "known_letters") = some ['a', 'b', '-', '-', '-']
    ∧ ((update_wordle_json defaultWordleDoc ['a', 'p', 'p', 'l', 'e']
        ['G', 'G', 'G', 'G', 'Q']).bind
        (fun d => getStrKey d "known_letters")) = some ['a', 'p', 'p', 'l', '-'] := by
  decide

theorem zip_take_min (w p : List Char) :
    (w.take (min w.length p.length)).zip (p.take (min w.length p.length)) = w.zip p := by
  rw [List.zip_eq_zipWith, ← List.take_zipWith, ← List.zip_eq_zipWith]
  rw [List.take_of_length_le]
  rw [List.length_zip]

/-- C8 (amended): update_wordle_json validates nothing: on any document carrying
the four fields it returns an updated document for every word and pattern; a
word/pattern length mismatch silently processes only the zipped prefix, and an
unrecognized pattern symbol leaves every constraint field unchanged at that
position. -/
theorem update_wordle_json_accepts_malformed (doc : List (String × JVal)) (w p : List Char)
    (hwf : wfDoc doc) :
    (∃ d', update_wordle_json doc w p = some d')
    ∧ update_wordle_json doc w p
        = update_wordle_json doc (w.take (min w.length p.length))
            (p.take (min w.length p.length))
    ∧ ∀ (i : Nat) (c s : Char) (d : WordleData), ¬(s = 'G') → ¬(s = 'A' ∨ s = 'X') →
        updateStep i (c, s) d = d := by
  obtain ⟨e, k, u, n, he, hk, hu, hn⟩ := wfDoc_fields doc hwf
  refine ⟨⟨writeback doc (update_core w p ⟨e, k, u, n⟩),
    update_wordle_json_some doc w p e k u n he hk hu hn⟩, ?_, ?_⟩
  · rw [update_wordle_json_some doc w p e k u n he hk hu hn,
      update_wordle_json_some doc _ _ e k u n he hk hu hn]
    have : update_core w p ⟨e, k, u, n⟩
        = update_core (w.take (min w.length p.length)) (p.take (min w.length p.length))
            ⟨e, k, u, n⟩ := by
      rw [update_core, update_core, zip_take_min]
    rw [this]
  · intro i c s d hG hAX
    have hA : ¬(s = 'A') := fun hcon => hAX (Or.inl hcon)
    have hX : ¬(s = 'X') := fun hcon => hAX (Or.inr hcon)
    show (⟨stepE i c s d.exclusions, stepK i c s d.known_letters,
      stepU c s d.unlocated_letters, stepN c s d.letters_not_in_word⟩ : WordleData) = d
    rw [stepE, if_neg hAX, stepK, if_neg hG, stepU, if_neg hG,
      if_neg (fun hcon => hA hcon.1), stepN, if_neg (fun hcon => hX hcon.1)]

/-- C5: after every application of update_wordle_json the letters_not_in_word
field is disjoint from the known and unlocated letters, and the final cleanup
only ever removes letters from letters_not_in_word, leaving the other fields of
the processed state untouched. -/
theorem update_wordle_json_absent_disjoint (doc : List (String × JVal)) (w p : List Char)
    (hwf : wfDoc doc) :
    (∃ d' n' k' u', update_wordle_json doc w p = some d'
      ∧ getStrKey d' "letters_not_in_word" = some n'
      ∧ getStrKey d' "known_letters" = some k'
      ∧ getStrKey d' "unlocated_letters_in_word" = some u'
      ∧ ∀ c ∈ n', c ∉ k'.filter (fun x => decide (x ≠ '-')) ∧ c ∉ u')
    ∧ ∀ s : WordleData, (cleanupNotin s).known_letters = s.known_letters
        ∧ (cleanupNotin s).unlocated_letters = s.unlocated_letters
        ∧ (cleanupNotin s).exclusions = s.exclusions
        ∧ (cleanupNotin s).letters_not_in_word
            = s.letters_not_in_word.filter (fun c => decide (c ∉ removeListOf s)) := by
  constructor
  · obtain ⟨e, k, u, n, he, hk, hu, hn⟩ := wfDoc_fields doc hwf
    have hupd := update_wordle_json_some doc w p e k u n he hk hu hn
    set s1 := update_core w p ⟨e, k, u, n⟩ with hs1
    refine ⟨writeback doc s1, s1.letters_not_in_word, s1.known_letters,
      s1.unlocated_letters, hupd,
      getStr_writeback_notin doc s1 (getStrKey_lookup_isSome doc _ (by rw [hn]; rfl)),
      getStr_writeback_known doc s1 (getStrKey_lookup_isSome doc _ (by rw [hk]; rfl)),
      getStr_writeback_unlocated doc s1 (getStrKey_lookup_isSome doc _ (by rw [hu]; rfl)), ?_⟩
    intro c hc
    have hnotin : s1.letters_not_in_word
        = (processPairs 0 (w.zip p) ⟨e, k, u, n⟩).letters_not_in_word.filter
          (fun c2 => decide (c2 ∉ removeListOf (processPairs 0 (w.zip p) ⟨e, k, u, n⟩))) := rfl
    rw [hnotin, List.mem_filter, decide_eq_true_eq] at hc
    have hrl := hc.2
    rw [removeListOf, List.mem_append] at hrl
    push_neg at hrl
    have hkeq : s1.known_letters = (processPairs 0 (w.zip p) ⟨e, k, u, n⟩).known_letters := rfl
    have hueq : s1.unlocated_letters
        = (processPairs 0 (w.zip p) ⟨e, k, u, n⟩).unlocated_letters := rfl
    rw [hkeq, hueq]
    exact ⟨hrl.1, hrl.2⟩
  · intro s
    exact ⟨rfl, rfl, rfl, rfl⟩

/-- C4 counterexample: applying "ccexy GAAXX" twice to the freshly reset
document does not reproduce the once-updated document: the second application
reorders unlocated_letters_in_word from "ce" to "ec". -/
theorem update_wordle_json_not_idempotent :
    ((update_wordle_json defaultWordleDoc ['c', 'c', 'e', 'x', 'y']
        ['G', 'A', 'A', 'X', 'X']).bind
      (fun d1 => update_wordle_json d1 ['c', 'c', 'e', 'x', 'y'] ['G', 'A', 'A', 'X', 'X']))
      ≠ update_wordle_json defaultWordleDoc ['c', 'c', 'e', 'x', 'y']
          ['G', 'A', 'A', 'X', 'X'] := by
  intro hcon
  have h2 : (((update_wordle_json defaultWordleDoc ['c', 'c', 'e', 'x', 'y']
        ['G', 'A', 'A', 'X', 'X']).bind
      (fun d1 => update_wordle_json d1 ['c', 'c', 'e', 'x', 'y']
        ['G', 'A', 'A', 'X', 'X'])).bind
      (fun d => getStrKey d "unlocated_letters_in_word"))
      = ((update_wordle_json defaultWordleDoc ['c', 'c', 'e', 'x', 'y']
          ['G', 'A', 'A', 'X', 'X']).bind
        (fun d => getStrKey d "unlocated_letters_in_word")) := by
    rw [hcon]
  exact absurd h2 (by decide)

/-- C4 (amended): applying the same guess and pattern twice agrees with applying
it once on exclusions, known_letters, letters_not_in_word and every extra key,
while unlocated_letters_in_word is reproduced only up to reordering (same letter
multiset). -/
theorem update_wordle_json_idem_mod_order (doc : List (String × JVal)) (w p : List Char)
    (hwf : wfDoc doc)
    (hk5 : ∀ k0, getStrKey doc "known_letters" = some k0 → k0.length = 5)
    (hw : w.length = 5) (hp : p.length = 5) :
    ∃ d1 d2, update_wordle_json doc w p = some d1 ∧ update_wordle_json d1 w p = some d2
      ∧ getExclKey d2 = getExclKey d1
      ∧ getStrKey d2 "known_letters" = getStrKey d1 "known_letters"
      ∧ getStrKey d2 "letters_not_in_word" = getStrKey d1 "letters_not_in_word"
      ∧ ∃ u2 u1, getStrKey d2 "unlocated_letters_in_word" = some u2
          ∧ getStrKey d1 "unlocated_letters_in_word" = some u1
          ∧ ∀ c, u2.count c = u1.count c := by
  obtain ⟨e, k, u, n, he, hk, hu, hn⟩ := wfDoc_fields doc hwf
  have hupd1 := update_wordle_json_some doc w p e k u n he hk hu hn
  set s1 := update_core w p ⟨e, k, u, n⟩ with hs1
  have hle : (doc.lookup "exclusions").isSome :=
    getExclKey_lookup_isSome doc (by rw [he]; rfl)
  have hlk : (doc.lookup "known_letters").isSome :=
    getStrKey_lookup_isSome doc _ (by rw [hk]; rfl)
  have hlu : (doc.lookup "unlocated_letters_in_word").isSome :=
    getStrKey_lookup_isSome doc _ (by rw [hu]; rfl)
  have hln : (doc.lookup "letters_not_in_word").isSome :=
    getStrKey_lookup_isSome doc _ (by rw [hn]; rfl)
  have hge1 : getExclKey (writeback doc s1) = some s1.exclusions :=
    getExcl_writeback doc s1 hle
  have hgk1 : getStrKey (writeback doc s1) "known_letters" = some s1.known_letters :=
    getStr_writeback_known doc s1 hlk
  have hgu1 : getStrKey (writeback doc s1) "unlocated_letters_in_word"
      = some s1.unlocated_letters := getStr_writeback_unlocated doc s1 hlu
  have hgn1 : getStrKey (writeback doc s1) "letters_not_in_word"
      = some s1.letters_not_in_word := getStr_writeback_notin doc s1 hln
  have hupd2 := update_wordle_json_some (writeback doc s1) w p s1.exclusions
    s1.known_letters s1.unlocated_letters s1.letters_not_in_word hge1 hgk1 hgu1 hgn1
  set s2 := update_core w p s1 with hs2
  have hge2 : getExclKey (writeback (writeback doc s1) s2) = some s2.exclusions :=
    getExcl_writeback (writeback doc s1) s2
      (getExclKey_lookup_isSome (writeback doc s1) (by rw [hge1]; rfl))
  have hgk2 : getStrKey (writeback (writeback doc s1) s2) "known_letters"
      = some s2.known_letters :=
    getStr_writeback_known (writeback doc s1) s2
      (getStrKey_lookup_isSome (writeback doc s1) _ (by rw [hgk1]; rfl))
  have hgu2 : getStrKey (writeback (writeback doc s1) s2) "unlocated_letters_in_word"
      = some s2.unlocated_letters :=
    getStr_writeback_unlocated (writeback doc s1) s2
      (getStrKey_lookup_isSome (writeback doc s1) _ (by rw [hgu1]; rfl))
  have hgn2 : getStrKey (writeback (writeback doc s1) s2) "letters_not_in_word"
      = some s2.letters_not_in_word :=
    getStr_writeback_notin (writeback doc s1) s2
      (getStrKey_lookup_isSome (writeback doc s1) _ (by rw [hgn1]; rfl))
  have hidem := update_core_idem w p ⟨e, k, u, n⟩ (hk5 k hk) hw hp
  refine ⟨writeback doc s1, writeback (writeback doc s1) s2, hupd1, hupd2, ?_, ?_, ?_, ?_⟩
  · rw [hge2, hge1]
    exact congrArg some hidem.1
  · rw [hgk2, hgk1]
    exact congrArg some hidem.2.1
  · rw [hgn2, hgn1]
    exact congrArg some hidem.2.2.1
  · refine ⟨s2.unlocated_letters, s1.unlocated_letters, hgu2, hgu1, ?_⟩
    exact hidem.2.2.2

theorem update_wordle_json_idem_mod_order_witness :
    ∃ d1 d2, update_wordle_json defaultWordleDoc ['c','c','e','x','y'] ['G','A','A','X','X']
        = some d1
      ∧ update_wordle_json d1 ['c','c','e','x','y'] ['G','A','A','X','X'] = some d2
      ∧ getExclKey d2 = getExclKey d1
      ∧ getStrKey d2 "known_letters" = getStrKey d1 "known_letters"
      ∧ getStrKey d2 "letters_not_in_word" = getStrKey d1 "letters_not_in_word"
      ∧ ∃ u2 u1, getStrKey d2 "unlocated_letters_in_word" = some u2
          ∧ getStrKey d1 "unlocated_letters_in_word" = some u1
          ∧ ∀ c, u2.count c = u1.count c :=
  update_wordle_json_idem_mod_order defaultWordleDoc ['c','c','e','x','y']
    ['G','A','A','X','X'] ⟨rfl, rfl, rfl, rfl⟩
    (fun k0 h0 => by cases h0; rfl) rfl rfl

theorem update_wordle_json_frame_witness :
    ∃ d', update_wordle_json docWithExtra ['c','r','a','n','e'] ['X','A','X','X','G']
        = some d'
      ∧ (∀ k0 : String, ¬(k0 = "exclusions") → ¬(k0 = "known_letters")
          → ¬(k0 = "unlocated_letters_in_word") → ¬(k0 = "letters_not_in_word")
          → d'.lookup k0 = docWithExtra.lookup k0)
      ∧ d'.map Prod.fst = docWithExtra.map Prod.fst :=
  update_wordle_json_frame docWithExtra ['c','r','a','n','e'] ['X','A','X','X','G']
    ⟨rfl, rfl, rfl, rfl⟩

theorem update_wordle_json_accepts_malformed_witness :
    (∃ d', update_wordle_json defaultWordleDoc ['a','b'] ['G','G','G','G','G'] = some d')
    ∧ update_wordle_json defaultWordleDoc ['a','b'] ['G','G','G','G','G']
        = update_wordle_json defaultWordleDoc
            (['a','b'].take (min (['a','b'] : List Char).length
              (['G','G','G','G','G'] : List Char).length))
            (['G','G','G','G','G'].take (min (['a','b'] : List Char).length
              (['G','G','G','G','G'] : List Char).length))
    ∧ ∀ (i : Nat) (c s : Char) (d : WordleData), ¬(s = 'G') → ¬(s = 'A' ∨ s = 'X') →
        updateStep i (c, s) d = d :=
  update_wordle_json_accepts_malformed defaultWordleDoc ['a','b'] ['G','G','G','G','G']
    ⟨rfl, rfl, rfl, rfl⟩

theorem update_wordle_json_absent_disjoint_witness :
    (∃ d' n' k' u',
        update_wordle_json defaultWordleDoc ['s','p','e','e','d'] ['X','A','G','A','X']
          = some d'
      ∧ getStrKey d' "letters_not_in_word" = some n'
      ∧ getStrKey d' "known_letters" = some k'
      ∧ getStrKey d' "unlocated_letters_in_word" = some u'
      ∧ ∀ c ∈ n', c ∉ k'.filter (fun x => decide (x ≠ '-')) ∧ c ∉ u')
    ∧ ∀ s : WordleData, (cleanupNotin s).known_letters = s.known_letters
        ∧ (cleanupNotin s).unlocated_letters = s.unlocated_letters
        ∧ (cleanupNotin s).exclusions = s.exclusions
        ∧ (cleanupNotin s).letters_not_in_word
            = s.letters_not_in_word.filter (fun c => decide (c ∉ removeListOf s)) :=
  update_wordle_json_absent_disjoint defaultWordleDoc ['s','p','e','e','d']
    ['X','A','G','A','X'] ⟨rfl, rfl, rfl, rfl⟩

/-- C3 counterexample: the guess "eeabc" with pattern "AAXXX" sends two
Present signals for the letter e at distinct occurrences, yet the stored
unlocated_letters_in_word records a count of 1, not the accumulated lower
bound 2: the field is a membership set, not a multiset. -/
theorem update_wordle_json_unlocated_not_multiset :
    ((update_wordle_json defaultWordleDoc ['e','e','a','b','c'] ['A','A','X','X','X']).bind
      (fun d => getStrKey d "unlocated_letters_in_word")).map (fun u => u.count 'e')
      = some 1 := by
  decide

theorem stepU_nodup (c s : Char) (u : List Char) (h : u.Nodup) : (stepU c s u).Nodup := by
  rw [stepU]
  by_cases hG : s = 'G'
  · rw [if_pos hG]
    by_cases hm : c ∈ u
    · rw [if_pos hm]
      exact h.filter _
    · rw [if_neg hm]
      exact h
  · rw [if_neg hG]
    by_cases hA : s = 'A' ∧ c ∉ u
    · rw [if_pos hA]
      rw [List.nodup_append]
      exact ⟨h, List.nodup_singleton c, by
        intro x hx hx1
        rw [List.mem_singleton] at hx1
        exact hA.2 (hx1 ▸ hx)⟩
    · rw [if_neg hA]
      exact h

theorem foldU_nodup : ∀ (l : List (Char × Char)) (u : List Char),
    u.Nodup → (foldU l u).Nodup := by
  intro l
  induction l with
  | nil => intro u h; exact h
  | cons q rest ih =>
    intro u h
    rw [foldU]
    exact ih _ (stepU_nodup q.1 q.2 u h)

theorem cf_noG_pres : ∀ (l : List (Char × Char)) (c : Char),
    (∀ q ∈ l, ¬(q.1 = c ∧ q.2 = 'G')) → ∀ a : CntFun, (a = .one ∨ a = .max1)
    → (l.foldl (fun b q => cfStep q c b) a = .one
        ∨ l.foldl (fun b q => cfStep q c b) a = .max1) := by
  intro l
  induction l with
  | nil => intro c _ a ha; exact ha
  | cons q rest ih =>
    intro c hl a ha
    rw [List.foldl_cons]
    refine ih c (fun q2 hq2 => hl q2 (List.mem_cons_of_mem q hq2)) _ ?_
    rw [cfStep.eq_def, if_neg (hl q (List.mem_cons_self q rest))]
    by_cases hA : q.1 = c ∧ q.2 = 'A'
    · rw [if_pos hA]
      rcases ha with h1 | h1 <;> rw [h1] <;> simp
    · rw [if_neg hA]
      exact ha

theorem cf_noG_A : ∀ (l : List (Char × Char)) (c : Char),
    (∀ q ∈ l, ¬(q.1 = c ∧ q.2 = 'G')) → (c, 'A') ∈ l → ∀ a : CntFun,
    (l.foldl (fun b q => cfStep q c b) a = .one
      ∨ l.foldl (fun b q => cfStep q c b) a = .max1) := by
  intro l
  induction l with
  | nil => intro c _ hA; exact absurd hA (List.not_mem_nil _)
  | cons q rest ih =>
    intro c hl hA a
    rw [List.foldl_cons]
    by_cases hq : q = (c, 'A')
    · refine cf_noG_pres rest c (fun q2 hq2 => hl q2 (List.mem_cons_of_mem q hq2)) _ ?_
      rw [hq, cfStep.eq_def]
      have hng : ¬((c : Char) = c ∧ ('A' : Char) = 'G') := by simp
      rw [if_neg hng, if_pos ⟨rfl, rfl⟩]
      cases a <;> simp
    · have hA2 : (c, 'A') ∈ rest := by
        rcases List.mem_cons.mp hA with h1 | h1
        · exact absurd h1.symm hq
        · exact h1
      exact ih c (fun q2 hq2 => hl q2 (List.mem_cons_of_mem q hq2)) hA2 _

theorem foldU_mem_of_A (l : List (Char × Char)) (u : List Char) (c : Char)
    (hl : ∀ q ∈ l, ¬(q.1 = c ∧ q.2 = 'G')) (hA : (c, 'A') ∈ l) : c ∈ foldU l u := by
  rw [← List.count_pos_iff, foldU_count]
  have h := foldl_countStep_cf l c .ident (u.count c)
  rw [show cfApply CntFun.ident (u.count c) = u.count c from rfl] at h
  rw [h]
  rcases cf_noG_A l c hl hA .ident with h1 | h1 <;> rw [h1]
  · rw [cfApply]
    omega
  · rw [cfApply]
    split <;> omega

theorem foldKnown_mem_of_G (l : List (Char × Char)) (k : List Char) (c : Char)
    (hb : l.length ≤ k.length) (hG : (c, 'G') ∈ l) : c ∈ foldKnown 0 l k := by
  obtain ⟨j, hjlt, hjeq⟩ := List.mem_iff_getElem.mp hG
  have hjk : j < k.length := lt_of_lt_of_le hjlt hb
  have hgd := foldKnown_getD l 0 k j (by omega) hjk
  have hwin : 0 ≤ j ∧ j < 0 + l.length := ⟨Nat.zero_le _, by omega⟩
  rw [if_pos hwin] at hgd
  have hld : l.getD (j - 0) ('-', '-') = (c, 'G') := by
    rw [Nat.sub_zero, List.getD_eq_getElem _ _ hjlt, hjeq]
  rw [hld] at hgd
  have hsnd : ((c, 'G') : Char × Char).2 = 'G' := rfl
  rw [if_pos hsnd] at hgd
  have hlen := foldKnown_length l 0 k (by omega)
  have hjf : j < (foldKnown 0 l k).length := by rw [hlen]; exact hjk
  rw [List.getD_eq_getElem _ _ hjf] at hgd
  have hfst : ((c, 'G') : Char × Char).1 = c := rfl
  rw [hfst] at hgd
  exact hgd ▸ List.getElem_mem hjf

/-- C3 (amended): unlocated_letters_in_word is a duplicate-free membership
set: updates preserve freedom from duplicates, and every letter marked
Present at some position ends up recorded in unlocated_letters_in_word or in
known_letters, with no multiplicity information. -/
theorem update_wordle_json_unlocated_set (doc : List (String × JVal)) (w p : List Char)
    (hwf : wfDoc doc)
    (hnd : ∀ u0, getStrKey doc "unlocated_letters_in_word" = some u0 → u0.Nodup)
    (hk5 : ∀ k0, getStrKey doc "known_letters" = some k0 → k0.length = 5)
    (hw : w.length = 5) (hp : p.length = 5) :
    ∃ d' u' k', update_wordle_json doc w p = some d'
      ∧ getStrKey d' "unlocated_letters_in_word" = some u'
      ∧ getStrKey d' "known_letters" = some k'
      ∧ u'.Nodup
      ∧ ∀ c, (c, 'A') ∈ w.zip p → c ∈ u' ∨ c ∈ k' := by
  obtain ⟨e, k, u, n, he, hk, hu, hn⟩ := wfDoc_fields doc hwf
  have hupd := update_wordle_json_some doc w p e k u n he hk hu hn
  set s1 := update_core w p ⟨e, k, u, n⟩ with hs1
  have hueq : s1.unlocated_letters = foldU (w.zip p) u :=
    (update_core_fields w p ⟨e, k, u, n⟩).2.2.1
  have hkeq : s1.known_letters = foldKnown 0 (w.zip p) k :=
    (update_core_fields w p ⟨e, k, u, n⟩).2.1
  refine ⟨writeback doc s1, s1.unlocated_letters, s1.known_letters, hupd,
    getStr_writeback_unlocated doc s1 (getStrKey_lookup_isSome doc _ (by rw [hu]; rfl)),
    getStr_writeback_known doc s1 (getStrKey_lookup_isSome doc _ (by rw [hk]; rfl)),
    ?_, ?_⟩
  · rw [hueq]
    exact foldU_nodup _ _ (hnd u hu)
  · intro c hcA
    by_cases hG : (c, 'G') ∈ w.zip p
    · right
      rw [hkeq]
      refine foldKnown_mem_of_G _ k c ?_ hG
      rw [List.length_zip, hw, hp, hk5 k hk]
      omega
    · left
      rw [hueq]
      refine foldU_mem_of_A _ u c ?_ hcA
      intro q hq hcon
      apply hG
      have hqe : q = (c, 'G') := by
        rcases q with ⟨a, b⟩
        have h1 : a = c := hcon.1
        have h2 : b = 'G' := hcon.2
        rw [h1, h2]
      rw [← hqe]
      exact hq

theorem update_wordle_json_unlocated_set_witness :
    ∃ d' u' k',
      update_wordle_json defaultWordleDoc ['e','e','a','b','c'] ['A','A','X','X','X']
        = some d'
      ∧ getStrKey d' "unlocated_letters_in_word" = some u'
      ∧ getStrKey d' "known_letters" = some k'
      ∧ u'.Nodup
      ∧ ∀ c, (c, 'A') ∈ (['e','e','a','b','c'] : List Char).zip
          (['A','A','X','X','X'] : List Char) → c ∈ u' ∨ c ∈ k' :=
  update_wordle_json_unlocated_set defaultWordleDoc ['e','e','a','b','c']
    ['A','A','X','X','X'] ⟨rfl, rfl, rfl, rfl⟩
    (fun u0 h0 => by cases h0; exact List.nodup_nil)
    (fun k0 h0 => by cases h0; rfl) rfl rfl

theorem flnzm_found : ∀ (l : List (List Char × List (List Bool × Nat)))
    (c0 : List Char) (M0 : Nat), 0 < M0 →
    ∃ c M, l.foldl flnzStep (some c0, some M0) = (some c, some M)
      ∧ 0 < M ∧ M ≤ M0
      ∧ (∀ e ∈ l, 0 < maxCount e.2 → M ≤ maxCount e.2)
      ∧ ((c = c0 ∧ M = M0)
        ∨ ∃ i, ∃ hi : i < l.length, (l[i]).1 = c ∧ maxCount (l[i]).2 = M ∧ M < M0
            ∧ ∀ j, ∀ hj : j < l.length, j < i
              → maxCount (l[j]).2 = 0 ∨ M < maxCount (l[j]).2) := by
  intro l
  induction l with
  | nil =>
    intro c0 M0 h0
    exact ⟨c0, M0, rfl, h0, le_refl _, fun e he => absurd he (List.not_mem_nil e),
      Or.inl ⟨rfl, rfl⟩⟩
  | cons e rest ih =>
    intro c0 M0 h0
    rw [List.foldl_cons]
    by_cases htr : 0 < maxCount e.2 ∧ maxCount e.2 < M0
    · have hstep : flnzStep (some c0, some M0) e = (some e.1, some (maxCount e.2)) := by
        rw [flnzStep]
        rw [if_pos ⟨htr.1, by simp [ltInf, htr.2]⟩]
      rw [hstep]
      obtain ⟨c, M, hfold, hM, hle, hmin, hdisj⟩ := ih e.1 (maxCount e.2) htr.1
      refine ⟨c, M, hfold, hM, le_trans hle (le_of_lt htr.2), ?_, ?_⟩
      · intro q hq hqpos
        rcases List.mem_cons.mp hq with h1 | h1
        · rw [h1]; exact hle
        · exact hmin q h1 hqpos
      · right
        rcases hdisj with ⟨hc, hMe⟩ | ⟨i, hi, hic, him, hilt, hj⟩
        · have h0b : 0 < (e :: rest).length := by simp
          refine ⟨0, h0b, ?_, ?_, ?_, ?_⟩
          · show e.1 = c; rw [hc]
          · show maxCount e.2 = M; rw [hMe]
          · rw [hMe]; exact htr.2
          · intro j hjl hj0; omega
        · have hib : i + 1 < (e :: rest).length := by
            simp only [List.length_cons]; omega
          refine ⟨i + 1, hib, ?_, ?_, lt_trans hilt htr.2, ?_⟩
          · show ((e :: rest)[i + 1]).1 = c
            rw [List.getElem_cons_succ]
            exact hic
          · show maxCount ((e :: rest)[i + 1]).2 = M
            rw [List.getElem_cons_succ]
            exact him
          · intro j hjlen hjlt
            cases j with
            | zero =>
              rw [List.getElem_cons_zero]
              exact Or.inr hilt
            | succ j2 =>
              rw [List.getElem_cons_succ]
              exact hj j2 (by simp only [List.length_cons] at hjlen; omega) (by omega)
    · have hstep : flnzStep (some c0, some M0) e = (some c0, some M0) := by
        rw [flnzStep, if_neg]
        intro hcon
        exact htr ⟨hcon.1, by simpa [ltInf] using hcon.2⟩
      rw [hstep]
      obtain ⟨c, M, hfold, hM, hle, hmin, hdisj⟩ := ih c0 M0 h0
      refine ⟨c, M, hfold, hM, hle, ?_, ?_⟩
      · intro q hq hqpos
        rcases List.mem_cons.mp hq with h1 | h1
        · rw [h1] at hqpos ⊢
          have h2 : M0 ≤ maxCount e.2 := by omega
          exact le_trans hle h2
        · exact hmin q h1 hqpos
      · rcases hdisj with ⟨hc, hMe⟩ | ⟨i, hi, hic, him, hilt, hj⟩
        · exact Or.inl ⟨hc, hMe⟩
        · right
          have hib : i + 1 < (e :: rest).length := by
            simp only [List.length_cons]; omega
          refine ⟨i + 1, hib, ?_, ?_, hilt, ?_⟩
          · show ((e :: rest)[i + 1]).1 = c
            rw [List.getElem_cons_succ]
            exact hic
          · show maxCount ((e :: rest)[i + 1]).2 = M
            rw [List.getElem_cons_succ]
            exact him
          · intro j hjlen hjlt
            cases j with
            | zero =>
              rw [List.getElem_cons_zero]
              by_cases hz : maxCount e.2 = 0
              · exact Or.inl hz
              · right
                have h2 : M0 ≤ maxCount e.2 := by omega
                exact lt_of_lt_of_le hilt h2
            | succ j2 =>
              rw [List.getElem_cons_succ]
              exact hj j2 (by simp only [List.length_cons] at hjlen; omega) (by omega)

/-- C6: find_lowest_non_zero_max returns a combo with a positive maximum
match_count that is least among all combos with positive maxima (a combo
whose buckets are all empty is never returned), and every earlier combo in
iteration order either has an all-zero maximum or a strictly larger one, so
ties are broken by first-encountered order. -/
theorem find_lowest_non_zero_max_spec (results : List (List Char × List (List Bool × Nat)))
    (hpos : ∃ e ∈ results, 0 < maxCount e.2) :
    ∃ c M, find_lowest_non_zero_max results = (some c, some M)
      ∧ 0 < M
      ∧ (∀ e ∈ results, 0 < maxCount e.2 → M ≤ maxCount e.2)
      ∧ ∃ i, ∃ hi : i < results.length, (results[i]).1 = c ∧ maxCount (results[i]).2 = M
          ∧ ∀ j, ∀ hj : j < results.length, j < i
            → maxCount (results[j]).2 = 0 ∨ M < maxCount (results[j]).2 := by
  revert hpos
  induction results with
  | nil =>
    intro hpos
    obtain ⟨q, hq, _⟩ := hpos
    exact absurd hq (List.not_mem_nil q)
  | cons e rest ih =>
    intro hpos
    rw [find_lowest_non_zero_max, List.foldl_cons]
    by_cases hz : 0 < maxCount e.2
    · have hstep : flnzStep (none, none) e = (some e.1, some (maxCount e.2)) := by
        rw [flnzStep, if_pos ⟨hz, by simp [ltInf]⟩]
      rw [hstep]
      obtain ⟨c, M, hfold, hM, hle, hmin, hdisj⟩ := flnzm_found rest e.1 (maxCount e.2) hz
      refine ⟨c, M, hfold, hM, ?_, ?_⟩
      · intro q hq hqpos
        rcases List.mem_cons.mp hq with h1 | h1
        · rw [h1]; exact hle
        · exact hmin q h1 hqpos
      · rcases hdisj with ⟨hc, hMe⟩ | ⟨i, hi, hic, him, hilt, hj⟩
        · have h0b : 0 < (e :: rest).length := by simp
          refine ⟨0, h0b, ?_, ?_, ?_⟩
          · show e.1 = c; rw [hc]
          · show maxCount e.2 = M; rw [hMe]
          · intro j hjl hj0; omega
        · have hib : i + 1 < (e :: rest).length := by
            simp only [List.length_cons]; omega
          refine ⟨i + 1, hib, ?_, ?_, ?_⟩
          · show ((e :: rest)[i + 1]).1 = c
            rw [List.getElem_cons_succ]; exact hic
          · show maxCount ((e :: rest)[i + 1]).2 = M
            rw [List.getElem_cons_succ]; exact him
          · intro j hjlen hjlt
            cases j with
            | zero =>
              rw [List.getElem_cons_zero]
              exact Or.inr hilt
            | succ j2 =>
              rw [List.getElem_cons_succ]
              exact hj j2 (by simp only [List.length_cons] at hjlen; omega) (by omega)
    · have hstep : flnzStep (none, none) e = (none, none) := by
        rw [flnzStep, if_neg]
        intro hcon
        exact hz hcon.1
      rw [hstep]
      have hpos2 : ∃ q ∈ rest, 0 < maxCount q.2 := by
        obtain ⟨q, hq, hqp⟩ := hpos
        rcases List.mem_cons.mp hq with h1 | h1
        · rw [h1] at hqp; exact absurd hqp hz
        · exact ⟨q, h1, hqp⟩
      obtain ⟨c, M, hfold, hM, hmin, i, hi, hic, him, hj⟩ := ih hpos2
      rw [find_lowest_non_zero_max] at hfold
      refine ⟨c, M, hfold, hM, ?_, ?_⟩
      · intro q hq hqpos
        rcases List.mem_cons.mp hq with h1 | h1
        · rw [h1] at hqpos; exact absurd hqpos hz
        · exact hmin q h1 hqpos
      · have hib : i + 1 < (e :: rest).length := by
          simp only [List.length_cons]; omega
        refine ⟨i + 1, hib, ?_, ?_, ?_⟩
        · show ((e :: rest)[i + 1]).1 = c
          rw [List.getElem_cons_succ]; exact hic
        · show maxCount ((e :: rest)[i + 1]).2 = M
          rw [List.getElem_cons_succ]; exact him
        · intro j hjlen hjlt
          cases j with
          | zero =>
            rw [List.getElem_cons_zero]
            exact Or.inl (by omega)
          | succ j2 =>
            rw [List.getElem_cons_succ]
            exact hj j2 (by simp only [List.length_cons] at hjlen; omega) (by omega)

theorem find_lowest_non_zero_max_spec_witness :
    ∃ c M, find_lowest_non_zero_max flnzExample = (some c, some M)
      ∧ 0 < M
      ∧ (∀ e ∈ flnzExample, 0 < maxCount e.2 → M ≤ maxCount e.2)
      ∧ ∃ i, ∃ hi : i < flnzExample.length, (flnzExample[i]).1 = c
          ∧ maxCount (flnzExample[i]).2 = M
          ∧ ∀ j, ∀ hj : j < flnzExample.length, j < i
            → maxCount (flnzExample[j]).2 = 0 ∨ M < maxCount (flnzExample[j]).2 :=
  find_lowest_non_zero_max_spec flnzExample
    ⟨(['b'], [([true], 5), ([false], 3)]), by decide⟩

theorem combinations_length : ∀ (l : List Char) (r : Nat),
    (combinations l r).length = Nat.choose l.length r := by
  intro l
  induction l with
  | nil =>
    intro r
    cases r with
    | zero => rfl
    | succ r2 => rfl
  | cons x xs ih =>
    intro r
    cases r with
    | zero => rfl
    | succ r2 =>
      rw [combinations, List.length_append, List.length_map, ih, ih,
        List.length_cons, Nat.choose_succ_succ]

/-- C7 counterexample: a subset size larger than the number of distinct
letters is not rejected: it silently yields an empty combination list, and
the non-positive size 0 silently yields the degenerate list containing only
the empty combination. -/
theorem get_n_letter_combinations_silent :
    get_n_letter_combinations ['A', 'B', 'C'] 4 = some []
    ∧ get_n_letter_combinations ['A', 'B', 'C'] 0 = some [[]] := by
  constructor
  · rfl
  · rfl

/-- C7 (amended): get_n_letter_combinations rejects only negative sizes; for
every non-negative size it returns a list of choose(distinct letters, n)
combinations, which in particular is silently empty whenever n exceeds the
number of distinct letters. -/
theorem get_n_letter_combinations_behavior (s : List Char) (n : Int) :
    (n < 0 → get_n_letter_combinations s n = none)
    ∧ (0 ≤ n → ∃ l, get_n_letter_combinations s n = some l
        ∧ l.length = Nat.choose (uniqueChars s).length n.toNat
        ∧ ((uniqueChars s).length < n.toNat → l = [])) := by
  constructor
  · intro hneg
    rw [get_n_letter_combinations, if_pos hneg]
  · intro hnn
    refine ⟨combinations (uniqueChars s) n.toNat, ?_, combinations_length _ _, ?_⟩
    · rw [get_n_letter_combinations, if_neg (by omega)]
    · intro hlt
      have hl := combinations_length (uniqueChars s) n.toNat
      rw [Nat.choose_eq_zero_of_lt hlt] at hl
      exact List.length_eq_zero.mp hl

theorem get_n_letter_combinations_behavior_witness :
    ((4 : Int) < 0 → get_n_letter_combinations ['A', 'B', 'C'] 4 = none)
    ∧ ((0 : Int) ≤ 4 → ∃ l, get_n_letter_combinations ['A', 'B', 'C'] 4 = some l
        ∧ l.length = Nat.choose (uniqueChars ['A', 'B', 'C']).length (4 : Int).toNat
        ∧ ((uniqueChars ['A', 'B', 'C']).length < (4 : Int).toNat → l = [])) :=
  get_n_letter_combinations_behavior ['A', 'B', 'C'] 4

theorem dictSum_bump : ∀ (d : List (Finset Char × Nat)) (k : Finset Char)
    (pr : Finset Char → Bool),
    dictSum (bumpKey d k) pr = dictSum d pr + (if pr k then 1 else 0) := by
  intro d
  induction d with
  | nil =>
    intro k pr
    rw [bumpKey, dictSum, dictSum]
    by_cases hp : pr k <;> simp [hp]
  | cons kv rest ih =>
    intro k pr
    rw [bumpKey]
    by_cases hk : kv.1 = k
    · rw [if_pos hk, dictSum, dictSum, List.filter_cons, List.filter_cons]
      by_cases hp : pr kv.1
      · have hp2 : pr k := by rw [← hk]; exact hp
        simp only [hp, hp2, if_true, List.map_cons, List.sum_cons]
        omega
      · have hp2 : ¬(pr k = true) := by rw [← hk]; exact hp
        simp only [hp, hp2, if_false, Bool.false_eq_true]
        simp [hp2]
    · rw [if_neg hk, dictSum, dictSum, List.filter_cons, List.filter_cons]
      by_cases hp : pr kv.1
      · simp only [hp, if_true, List.map_cons, List.sum_cons]
        have := ih k pr
        rw [dictSum, dictSum] at this
        omega
      · simp only [hp, Bool.false_eq_true, if_false]
        have := ih k pr
        rw [dictSum, dictSum] at this
        omega

theorem dictSum_foldl : ∀ (l : List (List Char)) (d : List (Finset Char × Nat))
    (pr : Finset Char → Bool),
    dictSum (l.foldl (fun d2 w => bumpKey d2 (wordKey w)) d) pr
      = dictSum d pr + l.countP (fun w => pr (wordKey w)) := by
  intro l
  induction l with
  | nil =>
    intro d pr
    rw [List.foldl_nil, List.countP_nil, Nat.add_zero]
  | cons w rest ih =>
    intro d pr
    rw [List.foldl_cons, ih, dictSum_bump, List.countP_cons]
    by_cases hp : pr (wordKey w)
    · simp [hp]
      omega
    · simp [hp]

/-- C9: for every word list and combo list, the optimised counting over the
preprocessed letter-set Counter computes exactly the same match_count for
every combo and binary assignment as the naive per-word set counting. -/
theorem optimised_counting_eq_sets (filtered_combos word_list : List (List Char)) :
    process_binary_combos_with_optimised_counting filtered_combos word_list
      = process_binary_combos_with_sets filtered_combos word_list := by
  rw [process_binary_combos_with_optimised_counting, process_binary_combos_with_sets]
  apply List.map_congr_left
  intro combo _
  refine congrArg (fun z => (combo, z)) ?_
  apply List.map_congr_left
  intro b _
  refine congrArg (fun z => (b, z)) ?_
  rw [preprocess_word_list, dictSum_foldl, List.countP_map]
  rw [show dictSum [] _ = 0 from rfl]
  rw [Nat.zero_add]
  rfl

end WordlePy
